import Mathlib

/-!
# Verification of the image-captioning notebook (`Lab_3/train.ipynb`)

A shallow embedding of the notebook's components and proofs about them:

* Python strings are modelled as lists of characters (`PyStr`), with faithful
  models of `str.lower`, `str.strip`, `str.split()` and `str.split(sep)`.
* Python dictionaries are modelled as association lists in insertion order:
  assigning to an existing key updates it in place, assigning to a new key
  appends it (`dictSet`), and lookup finds the first matching key (`dictGet`).
* The `Vocabulary` class, the `FlickrDataset` constructor, the `train`
  driver's write behaviour, and `DecoderRNN.beam_search` are embedded as
  executable Lean functions.  The neural network itself (LSTM step, linear
  head followed by `log_softmax`, token embedding, encoder features) is
  treated as an uninterpreted `Model` record, and scores live in an
  arbitrary linearly ordered additive type standing for the reals.
* Fallible operations (Python exceptions) are modelled with `Option`/`Except`.
-/

namespace Captioning

/-! ## Python strings -/

/-- A Python string, modelled as its list of characters. -/
abbrev PyStr := List Char

/-- The characters Python's `str.strip()` / `str.split()` treat as whitespace. -/
def isPyWs (c : Char) : Bool :=
  c == ' ' || c == '\t' || c == '\n' || c == '\r' || c == '\x0b' || c == '\x0c'

/-- Python `str.strip()`: drop whitespace from both ends. -/
def pyStrip (s : PyStr) : PyStr :=
  ((s.dropWhile isPyWs).reverse.dropWhile isPyWs).reverse

/-- Python `str.lower()` (on the basic-latin range, as `Char.toLower`). -/
def pyLower (s : PyStr) : PyStr := s.map Char.toLower

/-- Worker for `pySplitWs`; `cur` is the current token, reversed. -/
def splitWsAux : PyStr → PyStr → List PyStr
  | [], cur => if cur = [] then [] else [cur.reverse]
  | c :: cs, cur =>
    if isPyWs c then
      if cur = [] then splitWsAux cs [] else cur.reverse :: splitWsAux cs []
    else splitWsAux cs (c :: cur)

/-- Python `str.split()` with no argument: split on whitespace runs,
discarding empty tokens. -/
def pySplitWs (s : PyStr) : List PyStr := splitWsAux s []

/-- Worker for `splitTab`; `cur` is the current field, reversed. -/
def splitTabAux : PyStr → PyStr → List PyStr
  | [], cur => [cur.reverse]
  | c :: cs, cur =>
    if c = '\t' then cur.reverse :: splitTabAux cs [] else splitTabAux cs (c :: cur)

/-- Python `str.split('\t')`: split on every tab, keeping empty fields. -/
def splitTab (s : PyStr) : List PyStr := splitTabAux s []

/-- Python `'\t' in ln`. -/
def hasTab (s : PyStr) : Bool := s.any fun c => c == '\t'

/-! ## Python dictionaries as insertion-ordered association lists -/

/-- Python `d[k]` / `d.get(k)`: value of the first entry with key `k`. -/
def dictGet {α β : Type} [DecidableEq α] (d : List (α × β)) (k : α) : Option β :=
  (d.find? fun p => p.1 == k).map Prod.snd

/-- Python `d[k] = v`: update the entry in place if the key is present,
otherwise append a new entry. -/
def dictSet {α β : Type} [DecidableEq α] (d : List (α × β)) (k : α) (v : β) :
    List (α × β) :=
  if (dictGet d k).isSome then d.map fun p => if p.1 = k then (k, v) else p
  else d ++ [(k, v)]

/-! ## The `Vocabulary` class -/

/-- The special token at index 0. -/
def padS : PyStr := "<PAD>".data
/-- The special token at index 1. -/
def sosS : PyStr := "<SOS>".data
/-- The special token at index 2. -/
def eosS : PyStr := "<EOS>".data
/-- The special token at index 3. -/
def unkS : PyStr := "<UNK>".data

/-- The `Vocabulary` object: a frequency threshold and the two token maps. -/
structure Vocabulary where
  freq_threshold : Nat
  itos : List (Nat × PyStr)
  stoi : List (PyStr × Nat)
deriving DecidableEq

/-- `Vocabulary.__init__`: `itos = {0:"<PAD>",1:"<SOS>",2:"<EOS>",3:"<UNK>"}`
and `stoi` is its key-value flip. -/
def Vocabulary.init (ft : Nat) : Vocabulary :=
  let itos : List (Nat × PyStr) := [(0, padS), (1, sosS), (2, eosS), (3, unkS)]
  { freq_threshold := ft, itos := itos, stoi := itos.map fun p => (p.2, p.1) }

/-- `Vocabulary.tokenize`: `text.lower().strip().split()`. -/
def tokenize (text : PyStr) : List PyStr := pySplitWs (pyStrip (pyLower text))

/-- One `Counter` update with a single token: increment its count, appending
the key in first-occurrence order when new. -/
def counterAdd (freqs : List (PyStr × Nat)) (tok : PyStr) : List (PyStr × Nat) :=
  match dictGet freqs tok with
  | some n => dictSet freqs tok (n + 1)
  | none => freqs ++ [(tok, 1)]

/-- The `freqs` Counter built by `Vocabulary.build`:
`for s in sents: freqs.update(self.tokenize(s))`. -/
def buildFreqs (sents : List PyStr) : List (PyStr × Nat) :=
  sents.foldl (fun f s => (tokenize s).foldl counterAdd f) []

/-- The loop of `Vocabulary.build`: starting from `idx = 4`, give each
sufficiently frequent token the next index in both maps. -/
def buildFold (ft : Nat) : List (PyStr × Nat) →
    List (PyStr × Nat) × List (Nat × PyStr) × Nat →
    List (PyStr × Nat) × List (Nat × PyStr) × Nat
  | [], acc => acc
  | (tok, f) :: rest, (st, it, idx) =>
    if ft ≤ f then buildFold ft rest (dictSet st tok idx, dictSet it idx tok, idx + 1)
    else buildFold ft rest (st, it, idx)

/-- `Vocabulary.build`. -/
def Vocabulary.build (v : Vocabulary) (sents : List PyStr) : Vocabulary :=
  let r := buildFold v.freq_threshold (buildFreqs sents) (v.stoi, v.itos, 4)
  { v with stoi := r.1, itos := r.2.1 }

/-- `Vocabulary.numericalize`: for each token of `tokenize(text)` evaluate
`self.stoi.get(tok, self.stoi['<UNK>'])`.  Looking up `'<UNK>'` happens
first and raises (`none`) when that key is missing. -/
def Vocabulary.numericalize (v : Vocabulary) (text : PyStr) : Option (List Nat) :=
  (tokenize text).mapM fun tok =>
    (dictGet v.stoi unkS).map fun unk => (dictGet v.stoi tok).getD unk

/-! ## The `FlickrDataset` constructor -/

/-- The ambient filesystem, as far as `FlickrDataset.__init__` consults it:
directory/file existence and the lines of the captions file (each line as
Python's file iteration yields it, newline included). -/
structure FileSys where
  isDir : PyStr → Bool
  isFile : PyStr → Bool
  lines : PyStr → List PyStr

/-- `self.data = [ln.strip().split('\t') for ln in f if '\t' in ln]`. -/
def captionsData (lines : List PyStr) : List (List PyStr) :=
  (lines.filter fun ln => hasTab ln).map fun ln => splitTab (pyStrip ln)

/-- The implicit tuple unpacking in `[c for _, c in self.data]`: an entry
yields its second field, and raises a `ValueError` unless it has exactly
two fields. -/
def unpackSnd : List PyStr → Except PyStr PyStr
  | [_, c] => Except.ok c
  | _ => Except.error "ValueError: unpacking".data

/-- The fields of a constructed `FlickrDataset` that later code reads. -/
structure FlickrData where
  data : List (List PyStr)
  img_dir : PyStr
  vocab : Vocabulary
deriving DecidableEq

/-- `FlickrDataset.__init__`: assert the image directory and the captions
file exist, parse the tab-separated lines, and build the vocabulary from
the second field of every entry (that unpacking can itself raise). -/
def flickrInit (fs : FileSys) (img_dir captions_file : PyStr) (ft : Nat) :
    Except PyStr FlickrData :=
  if !fs.isDir img_dir then Except.error "AssertionError: image folder not found".data
  else if !fs.isFile captions_file then
    Except.error "AssertionError: captions file missing".data
  else
    let data := captionsData (fs.lines captions_file)
    (data.mapM unpackSnd).map fun caps =>
      { data := data, img_dir := img_dir, vocab := (Vocabulary.init ft).build caps }

/-! ## The `train` driver -/

/-- A value stored in the checkpoint dictionary: encoder weights, decoder
weights, or the vocabulary map.  `E` and `D` are the (uninterpreted) types
of `state_dict()` of the encoder and decoder. -/
inductive CkptVal (E D : Type) where
  | enc (w : E)
  | dec (w : D)
  | vocabMap (m : List (PyStr × Nat))
deriving DecidableEq

/-- The dictionary passed to `torch.save`. -/
abbrev Checkpoint (E D : Type) := List (PyStr × CkptVal E D)

/-- Everything `train` writes to disk: `(path, contents)` pairs. -/
abbrev WriteLog (E D : Type) := List (PyStr × Checkpoint E D)

/-- The epoch loop of `train`: each epoch folds the batch update over the
loader and performs no file write; the write log is threaded unchanged. -/
def runEpochs {E D B : Type} (upd : E × D → B → E × D) (batches : List B) :
    Nat → (E × D) × WriteLog E D → (E × D) × WriteLog E D
  | 0, acc => acc
  | n + 1, (w, log) => runEpochs upd batches n (batches.foldl upd w, log)

/-- `train`: build the dataset, run the epochs, then `torch.save` a single
dictionary with keys `'encoder'`, `'decoder'`, `'vocab'` to `output_path`.
The optimizer-driven weight evolution is abstracted into `upd`, and the
`DataLoader` into `loader`. -/
def train {E D B : Type} (fs : FileSys) (img_dir captions_file : PyStr) (ft : Nat)
    (enc0 : E) (dec0 : D) (loader : FlickrData → List B) (upd : E × D → B → E × D)
    (epochs : Nat) (output_path : PyStr) : Except PyStr (WriteLog E D) :=
  (flickrInit fs img_dir captions_file ft).map fun ds =>
    let r := runEpochs upd (loader ds) epochs ((enc0, dec0), [])
    r.2 ++ [(output_path,
      [("encoder".data, CkptVal.enc r.1.1), ("decoder".data, CkptVal.dec r.1.2),
       ("vocab".data, CkptVal.vocabMap ds.vocab.stoi)])]

/-! ## `DecoderRNN.beam_search`

The network is abstracted into a `Model`: `lstm inp st` is the next hidden
state returned by `self.lstm(inp, st)` (with `st = none` for Python's
`None`), `logp inp st` is `torch.log_softmax(self.fc(h.squeeze(0)), dim=-1)`
for the output `h` of that same call, `embed t` is `self.embed(t)`, and
`feats` is the encoder feature fed in at the start.  Scores live in an
arbitrary linearly ordered type `R` with an addition and a zero, standing
for the real log-probabilities. -/

/-- The uninterpreted recurrent decoder, as `beam_search` consults it. -/
structure Model (V : Nat) (σ ι R : Type) where
  lstm : ι → Option σ → σ
  logp : ι → Option σ → Fin V → R
  embed : Fin V → ι
  feats : ι

/-- One beam hypothesis `(sc, seq, st, inp)`. -/
structure Hyp (V : Nat) (σ ι R : Type) where
  score : R
  seq : List (Fin V)
  st : Option σ
  inp : ι
deriving DecidableEq

/-- The loop state: the `finished` list and the active `seqs` list. -/
structure BState (V : Nat) (σ ι R : Type) where
  finished : List (R × List (Fin V))
  seqs : List (Hyp V σ ι R)
deriving DecidableEq

variable {V : Nat} {σ ι R : Type}

/-- Insert into a descending-sorted list, before the first element with a
key not above `x`'s (so that the overall sort is stable, like Python's). -/
def insertDesc [LinearOrder R] {α : Type} (key : α → R) (x : α) : List α → List α
  | [] => [x]
  | y :: ys => if key x < key y then y :: insertDesc key x ys else x :: y :: ys

/-- Stable sort by key, highest first: Python's
`sorted(cand, key=lambda t: t[0], reverse=True)`. -/
def sortDesc [LinearOrder R] {α : Type} (key : α → R) : List α → List α
  | [] => []
  | x :: xs => insertDesc key x (sortDesc key xs)

/-- The index list of `logp.topk(k)` when `k` does not exceed the size of
the scored dimension: all tokens sorted by score descending, first `k`. -/
def topkList [LinearOrder R] (f : Fin V → R) (k : Nat) : List (Fin V) :=
  (sortDesc f (List.finRange V)).take k

/-- `logp.topk(k)` itself: PyTorch raises when `k` exceeds the dimension. -/
def topk [LinearOrder R] (f : Fin V → R) (k : Nat) : Option (List (Fin V)) :=
  if k ≤ V then some (topkList f k) else none

/-- The guard `seq and seq[-1] == vocab.stoi['<EOS>']`: an empty sequence
is never tested against the end-of-sequence index. -/
def isEOSHyp (eos : Nat) (h : Hyp V σ ι R) : Bool :=
  match h.seq.getLast? with
  | some t => t.val == eos
  | none => false

/-- The `beam` candidates generated from one live hypothesis, in `topk`
order: score `sc + lp[0,k]`, sequence `seq + [idx[0,k]]`, the fresh LSTM
state `ns`, and input `self.embed(idx[0,k])`. -/
def expandList [LinearOrder R] [Add R] (M : Model V σ ι R) (beam : Nat)
    (h : Hyp V σ ι R) : List (Hyp V σ ι R) :=
  (topkList (M.logp h.inp h.st) beam).map fun t =>
    ⟨h.score + M.logp h.inp h.st t, h.seq ++ [t], some (M.lstm h.inp h.st), M.embed t⟩

/-- Expanding one live hypothesis; fails (PyTorch `topk` error) when the
beam width exceeds the vocabulary size. -/
def expandHyp [LinearOrder R] [Add R] (M : Model V σ ι R) (beam : Nat)
    (h : Hyp V σ ι R) : Option (List (Hyp V σ ι R)) :=
  if beam ≤ V then some (expandList M beam h) else none

/-- The body of `for sc,seq,st,inp in seqs:` — left to right, an
end-of-sequence hypothesis is appended to the newly finished list, any
other is expanded into candidates. -/
def processSeqs [LinearOrder R] [Add R] (M : Model V σ ι R) (eos beam : Nat) :
    List (Hyp V σ ι R) → Option (List (R × List (Fin V)) × List (Hyp V σ ι R))
  | [] => some ([], [])
  | h :: hs =>
    if isEOSHyp eos h then
      (processSeqs M eos beam hs).map fun r => ((h.score, h.seq) :: r.1, r.2)
    else
      match expandHyp M beam h with
      | none => none
      | some ex => (processSeqs M eos beam hs).map fun r => (r.1, ex ++ r.2)

/-- One decoding step: process all hypotheses, then
`seqs = sorted(cand, key=lambda t: t[0], reverse=True)[:beam]`. -/
def stepBeam [LinearOrder R] [Add R] (M : Model V σ ι R) (eos beam : Nat)
    (st : BState V σ ι R) : Option (BState V σ ι R) :=
  (processSeqs M eos beam st.seqs).map fun r =>
    ⟨st.finished ++ r.1, (sortDesc Hyp.score r.2).take beam⟩

/-- The `for _ in range(max_len)` loop with its `if not seqs: break`. -/
def beamLoop [LinearOrder R] [Add R] (M : Model V σ ι R) (eos beam : Nat) :
    Nat → BState V σ ι R → Option (BState V σ ι R)
  | 0, st => some st
  | n + 1, st =>
    match stepBeam M eos beam st with
    | none => none
    | some st' => if st'.seqs.isEmpty then some st' else beamLoop M eos beam n st'

/-- `beamLoop` instrumented with the number of executed decoding steps;
used to express that the loop runs at most `max_len` steps and stops
early exactly when the active set empties. -/
def beamLoopCount [LinearOrder R] [Add R] (M : Model V σ ι R) (eos beam : Nat) :
    Nat → BState V σ ι R → Option (BState V σ ι R × Nat)
  | 0, st => some (st, 0)
  | n + 1, st =>
    match stepBeam M eos beam st with
    | none => none
    | some st' =>
      if st'.seqs.isEmpty then some (st', 1)
      else (beamLoopCount M eos beam n st').map fun r => (r.1, r.2 + 1)

/-- The initial state: `seqs = [(0.0, [], None, feats.unsqueeze(0))]`,
`finished = []`. -/
def initState [Zero R] (M : Model V σ ι R) : BState V σ ι R :=
  ⟨[], [⟨0, [], none, M.feats⟩]⟩

/-- The loop portion of `beam_search`, from the initial state. -/
def beamSearchRun [LinearOrder R] [Add R] [Zero R] (M : Model V σ ι R)
    (eos beam maxLen : Nat) : Option (BState V σ ι R) :=
  beamLoop M eos beam maxLen (initState M)

/-- `finished += [(sc, seq) for sc, seq, _, _ in seqs]` after the loop. -/
def mergedList (st : BState V σ ι R) : List (R × List (Fin V)) :=
  st.finished ++ st.seqs.map fun h => (h.score, h.seq)

/-- Python `max(l, key=lambda t: t[0])`: the first entry with the greatest
key; raises (`none`) on an empty list. -/
def pyMax [LinearOrder R] {β : Type} : List (R × β) → Option (R × β)
  | [] => none
  | x :: xs => some (xs.foldl (fun b y => if b.1 < y.1 then y else b) x)

/-- `DecoderRNN.beam_search`: run the loop, merge the still-active
hypotheses into `finished`, and return the sequence of the best entry.
`eos` is `vocab.stoi['<EOS>']`. -/
def beam_search [LinearOrder R] [Add R] [Zero R] (M : Model V σ ι R)
    (eos beam maxLen : Nat) : Option (List (Fin V)) :=
  (beamSearchRun M eos beam maxLen).bind fun st =>
    (pyMax (mergedList st)).map fun best => best.2

/-- The entries the inner loop appends to `finished` during one step. -/
def newlyFinished (eos : Nat) (seqs : List (Hyp V σ ι R)) : List (R × List (Fin V)) :=
  seqs.filterMap fun h => if isEOSHyp eos h then some (h.score, h.seq) else none

/-- The complete candidate list built during one step: every live
hypothesis expanded by its `beam` top tokens, in traversal order. -/
def candList [LinearOrder R] [Add R] (M : Model V σ ι R) (eos beam : Nat)
    (seqs : List (Hyp V σ ι R)) : List (Hyp V σ ι R) :=
  (seqs.filter fun h => !isEOSHyp eos h).flatMap (expandList M beam)

/-- Bound on the length of every recorded sequence, finished or active. -/
def lenBound (n : Nat) (st : BState V σ ι R) : Prop :=
  (∀ p ∈ st.finished, p.2.length ≤ n) ∧ ∀ h ∈ st.seqs, h.seq.length ≤ n

/-- The two vocabulary maps are mutually inverse: `stoi[tok] = i` exactly
when `itos[i] = tok`. -/
def Inverse (st : List (PyStr × Nat)) (it : List (Nat × PyStr)) : Prop :=
  ∀ k v, dictGet st k = some v ↔ dictGet it v = some k

/-! ## A concrete decoder for witnesses and counterexamples

Vocabulary size 4 with `stoi['<EOS>'] = 2`, state type `Unit`, inputs
numbered `0` for the encoder feature and `t + 1` for the embedding of
token `t`.  The integer scores instantiate the abstract score type and
realise one possible ordering of log-probabilities: from the feature,
token 0 scores best and token 2 (`<EOS>`) second; after token 0, token 1
scores best. -/

/-- A small concrete instance of the uninterpreted decoder model. -/
def cexM : Model 4 Unit Nat ℤ where
  lstm := fun _ _ => ()
  logp := fun inp _ t =>
    if inp = 0 then
      (if t.val = 0 then -1 else if t.val = 1 then -5 else if t.val = 2 then -3 else -6)
    else
      (if t.val = 1 then -1 else if t.val = 3 then -2 else -9)
  embed := fun t => t.val + 1
  feats := 0

/-- A concrete loop state holding one finished-looking hypothesis. -/
def wSt3 : BState 4 Unit Nat ℤ := ⟨[], [⟨-3, [2], some (), 3⟩]⟩

/-- The vocabulary built twice in a row, exhibiting the restart of the
index counter at 4 on the second `build` call. -/
def cexV : Vocabulary := ((Vocabulary.init 1).build ["a".data]).build ["b".data]

/-- A filesystem on which every path exists and the captions file holds a
single well-formed line. -/
def wFS : FileSys where
  isDir := fun _ => true
  isFile := fun _ => true
  lines := fun _ => ["img.jpg\ta cap\n".data]

/-- A filesystem on which every path exists but the single caption line —
which does contain a tab — strips down to one single field. -/
def cexFS : FileSys where
  isDir := fun _ => true
  isFile := fun _ => true
  lines := fun _ => ["img.jpg\t\n".data]

/-! ## Lemmas -/

theorem dictGet_nil {α β : Type} [DecidableEq α] (k : α) :
    dictGet ([] : List (α × β)) k = none := rfl

theorem dictGet_cons {α β : Type} [DecidableEq α] (p : α × β) (d : List (α × β)) (k : α) :
    dictGet (p :: d) k = if p.1 = k then some p.2 else dictGet d k := by
  by_cases h : p.1 = k
  · simp [dictGet, List.find?_cons_of_pos, h]
  · rw [dictGet, List.find?_cons_of_neg _ (by simp [h]), if_neg h]; rfl

theorem dictGet_append {α β : Type} [DecidableEq α] (d e : List (α × β)) (k : α) :
    dictGet (d ++ e) k = ((dictGet d k).orElse fun _ => dictGet e k) := by
  induction d with
  | nil => simp [dictGet_nil, Option.orElse]
  | cons p d ih =>
    by_cases h : p.1 = k <;> simp [dictGet_cons, h, ih, Option.orElse]

theorem dictGet_mapSet_self {α β : Type} [DecidableEq α] (d : List (α × β)) (k : α)
    (v : β) (hmem : (dictGet d k).isSome) :
    dictGet (d.map fun p => if p.1 = k then (k, v) else p) k = some v := by
  induction d with
  | nil => simp [dictGet_nil] at hmem
  | cons p d ih =>
    by_cases hpk : p.1 = k
    · simp [dictGet_cons, hpk]
    · have hmem' : (dictGet d k).isSome := by
        simpa [dictGet_cons, hpk] using hmem
      simp [dictGet_cons, hpk, ih hmem']

theorem dictGet_mapSet_ne {α β : Type} [DecidableEq α] (d : List (α × β)) (k : α)
    (v : β) (k' : α) (hk : ¬ k' = k) :
    dictGet (d.map fun p => if p.1 = k then (k, v) else p) k' = dictGet d k' := by
  induction d with
  | nil => simp
  | cons p d ih =>
    have hkk' : ¬ k = k' := fun h => hk h.symm
    by_cases hpk : p.1 = k
    · have hp' : ¬ p.1 = k' := by rw [hpk]; exact hkk'
      simp [dictGet_cons, hpk, hkk', hp', ih]
    · by_cases hpk' : p.1 = k' <;> simp [dictGet_cons, hpk, hpk', hk, ih]

/-- The fundamental lemma about `dictSet`: lookup after assignment. -/
theorem dictGet_dictSet {α β : Type} [DecidableEq α] (d : List (α × β)) (k : α) (v : β)
    (k' : α) : dictGet (dictSet d k v) k' = if k' = k then some v else dictGet d k' := by
  unfold dictSet
  by_cases hmem : (dictGet d k).isSome
  · rw [if_pos hmem]
    by_cases hk' : k' = k
    · subst hk'; rw [if_pos rfl]; exact dictGet_mapSet_self _ _ _ hmem
    · rw [if_neg hk', dictGet_mapSet_ne d k v k' hk']
  · rw [if_neg hmem, dictGet_append]
    by_cases hk' : k' = k
    · subst hk'
      rcases h : dictGet d k' with _ | v'
      · simp [h, Option.orElse, dictGet_cons]
      · rw [h] at hmem; simp at hmem
    · have hkk' : ¬ k = k' := fun hh => hk' hh.symm
      rcases h : dictGet d k' with _ | v'
      · simp [h, Option.orElse, dictGet_cons, hkk', dictGet_nil, hk']
      · simp [h, Option.orElse, hk']

/-- Membership in an updated dictionary: every entry is an old entry (with a
key different from `k`) or the new binding `(k, v)`. -/
theorem mem_dictSet {α β : Type} [DecidableEq α] {d : List (α × β)} {k : α} {v : β}
    {p : α × β} (hp : p ∈ dictSet d k v) : p ∈ d ∨ p = (k, v) := by
  unfold dictSet at hp
  split at hp
  · rcases List.mem_map.mp hp with ⟨q, hq, hqe⟩
    by_cases hqk : q.1 = k
    · right; simp [hqk] at hqe; exact hqe.symm
    · left; simp [hqk] at hqe; exact hqe ▸ hq
  · rcases List.mem_append.mp hp with h | h
    · exact Or.inl h
    · right; simpa using h

/-! ## Lemmas about `sortDesc`, `topkList` and `pyMax` -/

section SortLemmas

variable [LinearOrder R] {α : Type} (key : α → R)

theorem insertDesc_perm (x : α) : ∀ l : List α, List.Perm (insertDesc key x l) (x :: l)
  | [] => List.Perm.refl _
  | y :: ys => by
    unfold insertDesc
    split
    · exact ((insertDesc_perm x ys).cons y).trans (List.Perm.swap x y ys)
    · exact List.Perm.refl _

theorem sortDesc_perm : ∀ l : List α, List.Perm (sortDesc key l) l
  | [] => List.Perm.refl _
  | x :: xs => ((insertDesc_perm key x _).trans ((sortDesc_perm xs).cons x))

theorem insertDesc_sorted (x : α) {l : List α}
    (hl : l.Pairwise fun a b => key b ≤ key a) :
    (insertDesc key x l).Pairwise fun a b => key b ≤ key a := by
  induction l with
  | nil => simp [insertDesc]
  | cons y ys ih =>
    rw [List.pairwise_cons] at hl
    unfold insertDesc
    by_cases h : key x < key y
    · rw [if_pos h]
      rw [List.pairwise_cons]
      refine ⟨fun z hz => ?_, ih hl.2⟩
      rcases List.mem_cons.mp (((insertDesc_perm key x ys).mem_iff).mp hz) with rfl | hz
      · exact le_of_lt h
      · exact hl.1 z hz
    · rw [if_neg h]
      rw [List.pairwise_cons]
      refine ⟨fun z hz => ?_, List.pairwise_cons.mpr hl⟩
      rcases List.mem_cons.mp hz with rfl | hz
      · exact le_of_not_lt h
      · exact le_trans (hl.1 z hz) (le_of_not_lt h)

theorem sortDesc_sorted : ∀ l : List α, (sortDesc key l).Pairwise fun a b => key b ≤ key a
  | [] => List.Pairwise.nil
  | x :: xs => insertDesc_sorted key x (sortDesc_sorted xs)

theorem sortDesc_length (l : List α) : (sortDesc key l).length = l.length :=
  (sortDesc_perm key l).length_eq

/-- In a descending-sorted list, everything kept by `take k` dominates
everything discarded by it. -/
theorem sorted_take_dominates (l : List α) (k : Nat)
    (hl : l.Pairwise fun a b => key b ≤ key a) :
    ∀ a ∈ l.take k, ∀ b ∈ l.drop k, key b ≤ key a := by
  have hsplit : (l.take k ++ l.drop k).Pairwise fun a b => key b ≤ key a := by
    rwa [List.take_append_drop]
  have h := List.pairwise_append.mp hsplit
  exact fun a ha b hb => h.2.2 a ha b hb

end SortLemmas

section PyMaxLemmas

variable [LinearOrder R] {β : Type}

theorem pyMax_foldl (x : R × β) (xs : List (R × β)) :
    (xs.foldl (fun b y => if b.1 < y.1 then y else b) x = x ∨
      xs.foldl (fun b y => if b.1 < y.1 then y else b) x ∈ xs) ∧
    x.1 ≤ (xs.foldl (fun b y => if b.1 < y.1 then y else b) x).1 ∧
    ∀ q ∈ xs, q.1 ≤ (xs.foldl (fun b y => if b.1 < y.1 then y else b) x).1 := by
  induction xs generalizing x with
  | nil => simp
  | cons y ys ih =>
    rw [List.foldl_cons]
    by_cases hxy : x.1 < y.1
    · rw [if_pos hxy]
      rcases ih y with ⟨hmem, hle, hall⟩
      refine ⟨?_, le_trans (le_of_lt hxy) hle, fun q hq => ?_⟩
      · rcases hmem with h | h
        · exact Or.inr (by rw [h]; exact List.mem_cons_self y ys)
        · exact Or.inr (List.mem_cons_of_mem y h)
      · rcases List.mem_cons.mp hq with rfl | h
        · exact hle
        · exact hall q h
    · rw [if_neg hxy]
      rcases ih x with ⟨hmem, hle, hall⟩
      refine ⟨?_, hle, fun q hq => ?_⟩
      · rcases hmem with h | h
        · exact Or.inl h
        · exact Or.inr (List.mem_cons_of_mem y h)
      · rcases List.mem_cons.mp hq with rfl | h
        · exact le_trans (le_of_not_lt hxy) hle
        · exact hall q h

/-- Python's `max(l, key=lambda t: t[0])` returns an element of `l` whose
key is greatest. -/
theorem pyMax_eq_some {l : List (R × β)} {p : R × β} (h : pyMax l = some p) :
    p ∈ l ∧ ∀ q ∈ l, q.1 ≤ p.1 := by
  match l with
  | [] => simp [pyMax] at h
  | x :: xs =>
    rw [pyMax, Option.some_inj] at h
    rcases pyMax_foldl x xs with ⟨hmem, hle, hall⟩
    subst h
    refine ⟨?_, fun q hq => ?_⟩
    · rcases hmem with h | h
      · rw [h]; exact List.mem_cons_self x xs
      · exact List.mem_cons_of_mem x h
    · rcases List.mem_cons.mp hq with rfl | h
      · exact hle
      · exact hall q h

theorem pyMax_isSome {l : List (R × β)} (h : l ≠ []) : (pyMax l).isSome := by
  match l with
  | [] => exact absurd rfl h
  | x :: xs => simp [pyMax]

end PyMaxLemmas

section TopkLemmas

variable [LinearOrder R]

theorem topkList_length (f : Fin V → R) {k : Nat} (hk : k ≤ V) :
    (topkList f k).length = k := by
  rw [topkList, List.length_take, sortDesc_length]
  simp [Nat.min_eq_left, hk]

theorem topkList_nodup (f : Fin V → R) (k : Nat) : (topkList f k).Nodup :=
  (List.take_sublist _ _).nodup
    (((sortDesc_perm f (List.finRange V)).nodup_iff).mpr (List.nodup_finRange V))

/-- Every chosen token scores at least as high as every unchosen token:
`topk` really returns `k` highest-scoring indices. -/
theorem topkList_dominates (f : Fin V → R) (k : Nat) :
    ∀ t ∈ topkList f k, ∀ u : Fin V, u ∉ topkList f k → f u ≤ f t := by
  intro t ht u hu
  have hmem : u ∈ sortDesc f (List.finRange V) :=
    ((sortDesc_perm f (List.finRange V)).mem_iff).mpr (List.mem_finRange u)
  have hsplit : u ∈ (sortDesc f (List.finRange V)).take k ∨
      u ∈ (sortDesc f (List.finRange V)).drop k := by
    rw [← List.mem_append, List.take_append_drop]; exact hmem
  rcases hsplit with hsplit | hsplit
  · exact absurd hsplit hu
  · exact sorted_take_dominates f _ k (sortDesc_sorted f _) t ht u hsplit

end TopkLemmas

/-! ## Lemmas about the decoding step and loop -/

section StepLemmas

variable [LinearOrder R] [Add R] {M : Model V σ ι R} {eos beam : Nat}

theorem processSeqs_cons (h : Hyp V σ ι R) (hs : List (Hyp V σ ι R)) :
    processSeqs M eos beam (h :: hs) =
      if isEOSHyp eos h then
        (processSeqs M eos beam hs).map fun r => ((h.score, h.seq) :: r.1, r.2)
      else
        match expandHyp M beam h with
        | none => none
        | some ex => (processSeqs M eos beam hs).map fun r => (r.1, ex ++ r.2) := rfl

/-- `processSeqs` is total when the beam width fits the vocabulary, and
computes exactly the newly finished entries and the candidate list. -/
theorem processSeqs_eq (M : Model V σ ι R) (eos : Nat) (hbeam : beam ≤ V) :
    ∀ seqs : List (Hyp V σ ι R),
      processSeqs M eos beam seqs =
        some (newlyFinished eos seqs, candList M eos beam seqs) := by
  intro seqs
  induction seqs with
  | nil => rfl
  | cons h hs ih =>
    rw [processSeqs_cons]
    by_cases he : isEOSHyp eos h
    · rw [if_pos he, ih]
      simp [newlyFinished, candList, he]
    · rw [if_neg he, expandHyp, if_pos hbeam, ih]
      simp [newlyFinished, candList, he]

/-- Whenever `processSeqs` succeeds, its result is the newly finished
entries paired with the candidate list (also without `beam ≤ V`, which is
forced as soon as a live hypothesis exists). -/
theorem processSeqs_eq_of_some :
    ∀ {seqs : List (Hyp V σ ι R)} {r}, processSeqs M eos beam seqs = some r →
      r = (newlyFinished eos seqs, candList M eos beam seqs) := by
  intro seqs
  induction seqs with
  | nil =>
    intro r h
    rw [show processSeqs M eos beam [] = some ([], []) from rfl, Option.some_inj] at h
    rw [← h]; rfl
  | cons h hs ih =>
    intro r hr
    rw [processSeqs_cons] at hr
    by_cases he : isEOSHyp eos h
    · rw [if_pos he] at hr
      rcases Option.map_eq_some'.mp hr with ⟨r', hr', hre⟩
      rw [ih hr'] at hre
      rw [← hre]
      simp [newlyFinished, candList, he]
    · rw [if_neg he] at hr
      rcases hex : expandHyp M beam h with _ | ex
      · rw [hex] at hr; cases hr
      · rw [hex] at hr
        rcases Option.map_eq_some'.mp hr with ⟨r', hr', hre⟩
        have hei : ex = expandList M beam h := by
          rw [expandHyp] at hex
          by_cases hb : beam ≤ V
          · rw [if_pos hb, Option.some_inj] at hex; exact hex.symm
          · rw [if_neg hb] at hex; cases hex
        rw [ih hr', hei] at hre
        rw [← hre]
        simp [newlyFinished, candList, he]

/-- If `processSeqs` succeeds on a list containing a live hypothesis, the
beam width cannot exceed the vocabulary size (the PyTorch `topk` call on
the live hypothesis would have raised). -/
theorem beam_le_of_processSeqs_live :
    ∀ {seqs : List (Hyp V σ ι R)} {r}, processSeqs M eos beam seqs = some r →
      ∀ {h}, h ∈ seqs → isEOSHyp eos h = false → beam ≤ V := by
  intro seqs
  induction seqs with
  | nil => intro r _ h hh; cases hh
  | cons g gs ih =>
    intro r hr h hh hlive
    rw [processSeqs_cons] at hr
    by_cases he : isEOSHyp eos g
    · rw [if_pos he] at hr
      rcases Option.map_eq_some'.mp hr with ⟨r', hr', _⟩
      rcases List.mem_cons.mp hh with rfl | hh
      · rw [he] at hlive; cases hlive
      · exact ih hr' hh hlive
    · by_cases hb : beam ≤ V
      · exact hb
      · rw [if_neg he, expandHyp, if_neg hb] at hr
        cases hr

theorem mem_newlyFinished {seqs : List (Hyp V σ ι R)} {p}
    (hp : p ∈ newlyFinished eos seqs) :
    ∃ g ∈ seqs, isEOSHyp eos g = true ∧ p = (g.score, g.seq) := by
  rcases List.mem_filterMap.mp hp with ⟨g, hg, hpg⟩
  by_cases he : isEOSHyp eos g
  · rw [if_pos he, Option.some_inj] at hpg
    exact ⟨g, hg, he, hpg.symm⟩
  · rw [if_neg he] at hpg; cases hpg

theorem newlyFinished_mem {seqs : List (Hyp V σ ι R)} {h}
    (hh : h ∈ seqs) (he : isEOSHyp eos h = true) :
    (h.score, h.seq) ∈ newlyFinished eos seqs :=
  List.mem_filterMap.mpr ⟨h, hh, by rw [he]; rfl⟩

theorem mem_candList {seqs : List (Hyp V σ ι R)} {c : Hyp V σ ι R}
    (hc : c ∈ candList M eos beam seqs) :
    ∃ g ∈ seqs, isEOSHyp eos g = false ∧ ∃ t : Fin V,
      c = ⟨g.score + M.logp g.inp g.st t, g.seq ++ [t],
        some (M.lstm g.inp g.st), M.embed t⟩ := by
  rcases List.mem_flatMap.mp hc with ⟨g, hg, hcg⟩
  rcases List.mem_filter.mp hg with ⟨hgseqs, hglive⟩
  rcases List.mem_map.mp hcg with ⟨t, _, hct⟩
  exact ⟨g, hgseqs, by simpa using hglive, t, hct.symm⟩

theorem expandList_mem_candList {seqs : List (Hyp V σ ι R)} {h}
    (hh : h ∈ seqs) (hlive : isEOSHyp eos h = false) :
    ∀ c ∈ expandList M beam h, c ∈ candList M eos beam seqs := fun c hc =>
  List.mem_flatMap.mpr ⟨h, List.mem_filter.mpr ⟨hh, by simp [hlive]⟩, hc⟩

theorem expandList_length (hbeam : beam ≤ V) (h : Hyp V σ ι R) :
    (expandList M beam h).length = beam := by
  rw [expandList, List.length_map, topkList_length _ hbeam]

/-- One decoding step, written out, when the beam width fits. -/
theorem stepBeam_eq (hbeam : beam ≤ V) (st : BState V σ ι R) :
    stepBeam M eos beam st = some
      ⟨st.finished ++ newlyFinished eos st.seqs,
        (sortDesc Hyp.score (candList M eos beam st.seqs)).take beam⟩ := by
  rw [stepBeam, processSeqs_eq M eos hbeam]; rfl

/-- One decoding step, written out, from mere success. -/
theorem stepBeam_eq_of_some {st st' : BState V σ ι R}
    (h : stepBeam M eos beam st = some st') :
    st' = ⟨st.finished ++ newlyFinished eos st.seqs,
      (sortDesc Hyp.score (candList M eos beam st.seqs)).take beam⟩ := by
  rw [stepBeam] at h
  rcases Option.map_eq_some'.mp h with ⟨r, hr, hre⟩
  rw [processSeqs_eq_of_some hr] at hre
  exact hre.symm

theorem stepBeam_processSeqs {st st' : BState V σ ι R}
    (h : stepBeam M eos beam st = some st') :
    ∃ r, processSeqs M eos beam st.seqs = some r := by
  rw [stepBeam] at h
  rcases Option.map_eq_some'.mp h with ⟨r, hr, _⟩
  exact ⟨r, hr⟩

end StepLemmas

section LoopLemmas

variable [LinearOrder R] [Add R] {M : Model V σ ι R} {eos beam : Nat}

theorem beamLoop_succ (n : Nat) (st : BState V σ ι R) :
    beamLoop M eos beam (n + 1) st =
      match stepBeam M eos beam st with
      | none => none
      | some st' =>
        if st'.seqs.isEmpty then some st' else beamLoop M eos beam n st' := rfl

/-- Once the active set is empty, a step changes nothing. -/
theorem stepBeam_empty (fin : List (R × List (Fin V))) :
    stepBeam M eos beam ⟨fin, []⟩ = some ⟨fin, []⟩ := by
  simp [stepBeam, processSeqs, sortDesc]

/-- With no active hypotheses, any number of further loop iterations does
no more work: the state is returned unchanged. -/
theorem beamLoop_of_empty :
    ∀ (n : Nat) (fin : List (R × List (Fin V))),
      beamLoop M eos beam n ⟨fin, []⟩ = some ⟨fin, []⟩ := by
  intro n fin
  cases n with
  | zero => rfl
  | succ n => rw [beamLoop_succ, stepBeam_empty]; rfl

/-- Any property preserved by one step is preserved by the loop. -/
theorem beamLoop_pres (P : BState V σ ι R → Prop)
    (hstep : ∀ st st', stepBeam M eos beam st = some st' → P st → P st') :
    ∀ {n : Nat} {st st' : BState V σ ι R},
      beamLoop M eos beam n st = some st' → P st → P st' := by
  intro n
  induction n with
  | zero =>
    intro st st' h hP
    rw [show beamLoop M eos beam 0 st = some st from rfl, Option.some_inj] at h
    exact h ▸ hP
  | succ n ih =>
    intro st st' h hP
    rcases hst : stepBeam M eos beam st with _ | st₁
    · simp only [beamLoop_succ, hst] at h; cases h
    · simp only [beamLoop_succ, hst] at h
      by_cases hemp : st₁.seqs.isEmpty
      · rw [if_pos hemp, Option.some_inj] at h
        exact h ▸ hstep st st₁ hst hP
      · rw [if_neg hemp] at h
        exact ih h (hstep st st₁ hst hP)

theorem stepBeam_finished_append {st st' : BState V σ ι R}
    (h : stepBeam M eos beam st = some st') :
    ∃ tail, st'.finished = st.finished ++ tail := by
  rw [stepBeam_eq_of_some h]; exact ⟨_, rfl⟩

/-- Along the whole loop, `finished` only ever grows by appending: entries
already finished are never modified or dropped. -/
theorem beamLoop_finished_append :
    ∀ {n : Nat} {st st' : BState V σ ι R}, beamLoop M eos beam n st = some st' →
      ∃ tail, st'.finished = st.finished ++ tail := by
  intro n
  induction n with
  | zero =>
    intro st st' h
    rw [show beamLoop M eos beam 0 st = some st from rfl, Option.some_inj] at h
    exact ⟨[], by rw [← h, List.append_nil]⟩
  | succ n ih =>
    intro st st' h
    rcases hst : stepBeam M eos beam st with _ | st₁
    · simp only [beamLoop_succ, hst] at h; cases h
    · simp only [beamLoop_succ, hst] at h
      by_cases hemp : st₁.seqs.isEmpty
      · rw [if_pos hemp, Option.some_inj] at h
        exact h ▸ stepBeam_finished_append hst
      · rw [if_neg hemp] at h
        rcases stepBeam_finished_append hst with ⟨t1, ht1⟩
        rcases ih h with ⟨t2, ht2⟩
        exact ⟨t1 ++ t2, by rw [ht2, ht1, List.append_assoc]⟩

/-- The loop is total when the beam width fits the vocabulary. -/
theorem beamLoop_isSome (hbeam : beam ≤ V) :
    ∀ (n : Nat) (st : BState V σ ι R), ∃ st',
      beamLoop M eos beam n st = some st' := by
  intro n
  induction n with
  | zero => intro st; exact ⟨st, rfl⟩
  | succ n ih =>
    intro st
    by_cases hemp : ((sortDesc Hyp.score (candList M eos beam st.seqs)).take beam).isEmpty
    · refine ⟨⟨st.finished ++ newlyFinished eos st.seqs,
        (sortDesc Hyp.score (candList M eos beam st.seqs)).take beam⟩, ?_⟩
      simp only [beamLoop_succ, stepBeam_eq hbeam]
      rw [if_pos hemp]
    · rcases ih ⟨st.finished ++ newlyFinished eos st.seqs,
        (sortDesc Hyp.score (candList M eos beam st.seqs)).take beam⟩ with ⟨st', hst'⟩
      refine ⟨st', ?_⟩
      simp only [beamLoop_succ, stepBeam_eq hbeam]
      rw [if_neg hemp]
      exact hst'

theorem lenBound_mono {m n : Nat} (hmn : m ≤ n) {st : BState V σ ι R}
    (h : lenBound m st) : lenBound n st :=
  ⟨fun p hp => le_trans (h.1 p hp) hmn, fun g hg => le_trans (h.2 g hg) hmn⟩

/-- A step extends every sequence by at most one token. -/
theorem stepBeam_lenBound {st st' : BState V σ ι R}
    (hstep : stepBeam M eos beam st = some st') {n : Nat} (h : lenBound n st) :
    lenBound (n + 1) st' := by
  rw [stepBeam_eq_of_some hstep]
  constructor
  · intro p hp
    rcases List.mem_append.mp hp with hp | hp
    · exact le_trans (h.1 p hp) (Nat.le_succ n)
    · rcases mem_newlyFinished hp with ⟨g, hg, _, rfl⟩
      exact le_trans (h.2 g hg) (Nat.le_succ n)
  · intro c hc
    have hc' : c ∈ candList M eos beam st.seqs :=
      ((sortDesc_perm Hyp.score _).mem_iff).mp (List.mem_of_mem_take hc)
    rcases mem_candList hc' with ⟨g, hg, _, t, rfl⟩
    simpa using Nat.succ_le_succ (h.2 g hg)

theorem beamLoop_lenBound :
    ∀ {n k : Nat} {st st' : BState V σ ι R}, beamLoop M eos beam n st = some st' →
      lenBound k st → lenBound (k + n) st' := by
  intro n
  induction n with
  | zero =>
    intro k st st' h hb
    rw [show beamLoop M eos beam 0 st = some st from rfl, Option.some_inj] at h
    exact h ▸ hb
  | succ n ih =>
    intro k st st' h hb
    rcases hst : stepBeam M eos beam st with _ | st₁
    · simp only [beamLoop_succ, hst] at h; cases h
    · simp only [beamLoop_succ, hst] at h
      have hb1 : lenBound (k + 1) st₁ := stepBeam_lenBound hst hb
      by_cases hemp : st₁.seqs.isEmpty
      · rw [if_pos hemp, Option.some_inj] at h
        exact h ▸ lenBound_mono (by omega) hb1
      · rw [if_neg hemp] at h
        exact lenBound_mono (by omega) (ih h hb1)

/-- A step preserves non-emptiness of `finished ++ seqs` when the beam
width is at least one. -/
theorem stepBeam_union_ne (hone : 1 ≤ beam) {st st' : BState V σ ι R}
    (hstep : stepBeam M eos beam st = some st')
    (hne : st.finished ≠ [] ∨ st.seqs ≠ []) :
    st'.finished ≠ [] ∨ st'.seqs ≠ [] := by
  rw [stepBeam_eq_of_some hstep]
  rcases hne with hne | hne
  · exact Or.inl (List.append_ne_nil_of_left_ne_nil hne _)
  · rcases List.exists_mem_of_ne_nil _ hne with ⟨h, hh⟩
    · by_cases he : isEOSHyp eos h
      · exact Or.inl (List.append_ne_nil_of_right_ne_nil _
          (List.ne_nil_of_mem (newlyFinished_mem hh he)))
      · right
        have hb : beam ≤ V := by
          rcases stepBeam_processSeqs hstep with ⟨r, hr⟩
          exact beam_le_of_processSeqs_live hr hh (Bool.eq_false_iff.mpr he)
        have hexlen : (expandList M beam h).length = beam := expandList_length hb h
        have hexne : expandList M beam h ≠ [] := by
          intro hnil; rw [hnil] at hexlen; simp at hexlen; omega
        rcases List.exists_mem_of_ne_nil _ hexne with ⟨c, hc⟩
        have hccand : c ∈ candList M eos beam st.seqs :=
          expandList_mem_candList hh (Bool.eq_false_iff.mpr he) c hc
        have hlen : 0 < ((sortDesc Hyp.score (candList M eos beam st.seqs)).take beam).length := by
          rw [List.length_take, sortDesc_length]
          have : 0 < (candList M eos beam st.seqs).length :=
            List.length_pos.mpr (List.ne_nil_of_mem hccand)
          omega
        exact List.length_pos.mp hlen

/-- A step preserves "every recorded sequence is non-empty", and every new
active sequence is non-empty outright. -/
theorem stepBeam_allNE {st st' : BState V σ ι R}
    (hstep : stepBeam M eos beam st = some st')
    (h : (∀ p ∈ st.finished, p.2 ≠ []) ∧ ∀ g ∈ st.seqs, g.seq ≠ []) :
    (∀ p ∈ st'.finished, p.2 ≠ []) ∧ ∀ g ∈ st'.seqs, g.seq ≠ [] := by
  rw [stepBeam_eq_of_some hstep]
  constructor
  · intro p hp
    rcases List.mem_append.mp hp with hp | hp
    · exact h.1 p hp
    · rcases mem_newlyFinished hp with ⟨g, hg, _, rfl⟩
      exact h.2 g hg
  · intro c hc
    have hc' : c ∈ candList M eos beam st.seqs :=
      ((sortDesc_perm Hyp.score _).mem_iff).mp (List.mem_of_mem_take hc)
    rcases mem_candList hc' with ⟨g, _, _, t, rfl⟩
    simp

theorem beamLoopCount_succ (n : Nat) (st : BState V σ ι R) :
    beamLoopCount M eos beam (n + 1) st =
      match stepBeam M eos beam st with
      | none => none
      | some st' =>
        if st'.seqs.isEmpty then some (st', 1)
        else (beamLoopCount M eos beam n st').map fun r => (r.1, r.2 + 1) := rfl

/-- The instrumented loop agrees with the loop, runs at most `n` steps, and
stops before exhausting its budget exactly when the active set emptied. -/
theorem beamLoopCount_spec :
    ∀ {n : Nat} {st st' : BState V σ ι R} {c : Nat},
      beamLoopCount M eos beam n st = some (st', c) →
      beamLoop M eos beam n st = some st' ∧ c ≤ n ∧ (c < n → st'.seqs = []) := by
  intro n
  induction n with
  | zero =>
    intro st st' c h
    rw [show beamLoopCount M eos beam 0 st = some (st, 0) from rfl,
      Option.some_inj] at h
    injection h with h1 h2
    subst h1; subst h2
    exact ⟨rfl, Nat.le_refl 0, fun hlt => absurd hlt (by omega)⟩
  | succ n ih =>
    intro st st' c h
    rcases hst : stepBeam M eos beam st with _ | st₁
    · simp only [beamLoopCount_succ, hst] at h; cases h
    · simp only [beamLoopCount_succ, hst] at h
      by_cases hemp : st₁.seqs.isEmpty
      · rw [if_pos hemp, Option.some_inj] at h
        injection h with h1 h2
        subst h1; subst h2
        refine ⟨?_, by omega, fun _ => List.isEmpty_iff.mp hemp⟩
        simp only [beamLoop_succ, hst]
        rw [if_pos hemp]
      · rw [if_neg hemp] at h
        rcases Option.map_eq_some'.mp h with ⟨⟨st₂, c₂⟩, hrec, hre⟩
        injection hre with h1 h2
        subst h1; subst h2
        rcases ih hrec with ⟨hloop, hc, hcend⟩
        refine ⟨?_, by omega, fun hlt => hcend (by omega)⟩
        simp only [beamLoop_succ, hst]
        rw [if_neg hemp]
        exact hloop

/-- The instrumented loop is total when the beam width fits. -/
theorem beamLoopCount_isSome (hbeam : beam ≤ V) :
    ∀ (n : Nat) (st : BState V σ ι R), ∃ r,
      beamLoopCount M eos beam n st = some r := by
  intro n
  induction n with
  | zero => intro st; exact ⟨(st, 0), rfl⟩
  | succ n ih =>
    intro st
    by_cases hemp : ((sortDesc Hyp.score (candList M eos beam st.seqs)).take beam).isEmpty
    · refine ⟨(⟨st.finished ++ newlyFinished eos st.seqs,
        (sortDesc Hyp.score (candList M eos beam st.seqs)).take beam⟩, 1), ?_⟩
      simp only [beamLoopCount_succ, stepBeam_eq hbeam]
      rw [if_pos hemp]
    · rcases ih ⟨st.finished ++ newlyFinished eos st.seqs,
        (sortDesc Hyp.score (candList M eos beam st.seqs)).take beam⟩ with ⟨⟨st₂, c₂⟩, hr⟩
      refine ⟨(st₂, c₂ + 1), ?_⟩
      simp only [beamLoopCount_succ, stepBeam_eq hbeam]
      rw [if_neg hemp, hr]
      rfl

end LoopLemmas

/-- Inversion of a successful `beam_search` call into the loop result and
the selected best entry. -/
theorem beam_search_inv [LinearOrder R] [Add R] [Zero R] {M : Model V σ ι R}
    {eos beam maxLen : Nat} {out : List (Fin V)}
    (h : beam_search M eos beam maxLen = some out) :
    ∃ st best, beamSearchRun M eos beam maxLen = some st ∧
      pyMax (mergedList st) = some best ∧ out = best.2 := by
  rw [beam_search] at h
  rcases hrun : beamSearchRun M eos beam maxLen with _ | st <;> rw [hrun] at h
  · cases h
  · rw [Option.some_bind] at h
    rcases Option.map_eq_some'.mp h with ⟨best, hbest, hre⟩
    exact ⟨st, best, rfl, hbest, hre.symm⟩

/-! ## Claim theorems about `beam_search` -/

/-- C1, counterexample: on `cexM` with beam width 2 and two steps, the
finished set ends up non-empty (it holds the sequence `[2]` with score
−3), yet `beam_search` returns the still-active sequence `[0, 1]` (score
−2), not the best finished sequence — so the claim that an active sequence
is returned only when the finished set is empty is false. -/
theorem beam_search_active_beats_finished_cex :
    (beamSearchRun cexM 2 2 2).map BState.finished = some [((-3 : ℤ), [(2 : Fin 4)])] ∧
    beam_search cexM 2 2 2 = some [(0 : Fin 4), (1 : Fin 4)] ∧
    ([(0 : Fin 4), (1 : Fin 4)] : List (Fin 4)) ≠ [(2 : Fin 4)] := by
  exact ⟨by decide, by decide, by decide⟩

/-- C1, amended: for a beam width between 1 and the vocabulary size,
`beam_search` returns the sequence of a maximal-score entry of the merged
list of finished and still-active hypotheses — with no preference for
finished entries. -/
theorem beam_search_returns_max_of_merged [LinearOrder R] [Add R] [Zero R]
    (M : Model V σ ι R) (eos beam maxLen : Nat) (hone : 1 ≤ beam) (hbeam : beam ≤ V) :
    ∃ st, beamSearchRun M eos beam maxLen = some st ∧
      ∃ best ∈ mergedList st, (∀ q ∈ mergedList st, q.1 ≤ best.1) ∧
        beam_search M eos beam maxLen = some best.2 := by
  rcases beamLoop_isSome hbeam maxLen (initState M) with ⟨st, hst⟩
  have hunion : st.finished ≠ [] ∨ st.seqs ≠ [] :=
    beamLoop_pres (fun s => s.finished ≠ [] ∨ s.seqs ≠ [])
      (fun s s' h1 h2 => stepBeam_union_ne hone h1 h2) hst
      (Or.inr (by simp [initState]))
  have hmerged : mergedList st ≠ [] := by
    intro hnil
    rw [mergedList, List.append_eq_nil] at hnil
    rcases hunion with h | h
    · exact h hnil.1
    · exact h (List.map_eq_nil_iff.mp hnil.2)
  rcases Option.isSome_iff_exists.mp (pyMax_isSome hmerged) with ⟨best, hbest⟩
  rcases pyMax_eq_some hbest with ⟨hmem, hmax⟩
  refine ⟨st, hst, best, hmem, hmax, ?_⟩
  rw [beam_search, show beamSearchRun M eos beam maxLen = some st from hst,
    Option.some_bind, hbest]
  rfl

/-- C1, witness: the amended theorem applied to the concrete decoder. -/
theorem beam_search_returns_max_of_merged_witness :
    ∃ st, beamSearchRun cexM 2 2 2 = some st ∧
      ∃ best ∈ mergedList st, (∀ q ∈ mergedList st, q.1 ≤ best.1) ∧
        beam_search cexM 2 2 2 = some best.2 :=
  beam_search_returns_max_of_merged cexM 2 2 2 (by omega) (by omega)

/-- C2: at any decoding step, a live hypothesis is expanded by exactly the
`beam` highest-log-probability tokens (so many of them, pairwise distinct,
each scoring at least as high as every unchosen token, each candidate
scoring the cumulative log-probability), the expansions enter the global
candidate list, and only a beam-width number of highest-cumulative-score
candidates are retained: the retained and dropped candidates partition the
candidate list, and every retained score dominates every dropped score. -/
theorem beam_search_topk_expand_retain [LinearOrder R] [Add R] (M : Model V σ ι R)
    (eos beam : Nat) (st : BState V σ ι R) (hbeam : beam ≤ V)
    (h : Hyp V σ ι R) (hmem : h ∈ st.seqs) (hlive : isEOSHyp eos h = false) :
    (topk (M.logp h.inp h.st) beam = some (topkList (M.logp h.inp h.st) beam) ∧
      (topkList (M.logp h.inp h.st) beam).length = beam ∧
      (topkList (M.logp h.inp h.st) beam).Nodup ∧
      (∀ t ∈ topkList (M.logp h.inp h.st) beam, ∀ u : Fin V,
        u ∉ topkList (M.logp h.inp h.st) beam →
          M.logp h.inp h.st u ≤ M.logp h.inp h.st t) ∧
      expandHyp M beam h = some (expandList M beam h) ∧
      ∀ c ∈ expandList M beam h, c ∈ candList M eos beam st.seqs) ∧
    stepBeam M eos beam st = some
      ⟨st.finished ++ newlyFinished eos st.seqs,
        (sortDesc Hyp.score (candList M eos beam st.seqs)).take beam⟩ ∧
    List.Perm
      ((sortDesc Hyp.score (candList M eos beam st.seqs)).take beam ++
        (sortDesc Hyp.score (candList M eos beam st.seqs)).drop beam)
      (candList M eos beam st.seqs) ∧
    ((sortDesc Hyp.score (candList M eos beam st.seqs)).take beam).length =
      min beam (candList M eos beam st.seqs).length ∧
    ∀ a ∈ (sortDesc Hyp.score (candList M eos beam st.seqs)).take beam,
      ∀ b ∈ (sortDesc Hyp.score (candList M eos beam st.seqs)).drop beam,
        b.score ≤ a.score := by
  refine ⟨⟨by rw [topk, if_pos hbeam], topkList_length _ hbeam, topkList_nodup _ _,
    topkList_dominates _ _, by rw [expandHyp, if_pos hbeam],
    expandList_mem_candList hmem hlive⟩, stepBeam_eq hbeam st, ?_, ?_, ?_⟩
  · rw [List.take_append_drop]
    exact sortDesc_perm Hyp.score _
  · rw [List.length_take, sortDesc_length]
  · exact sorted_take_dominates Hyp.score _ beam (sortDesc_sorted Hyp.score _)

/-- C2, witness: the expansion/retention theorem applied to the concrete
decoder at its initial state, whose single hypothesis is live. -/
theorem beam_search_topk_expand_retain_witness :
    stepBeam cexM 2 2 (initState cexM) = some
      ⟨(initState cexM).finished ++ newlyFinished 2 (initState cexM).seqs,
        (sortDesc Hyp.score (candList cexM 2 2 (initState cexM).seqs)).take 2⟩ :=
  (beam_search_topk_expand_retain cexM 2 2 (initState cexM) (by omega)
    ⟨0, [], none, 0⟩ (by decide) (by decide)).2.1

/-- C3: a hypothesis whose sequence is non-empty and ends in the
end-of-sequence token is moved into `finished` by the step that examines
it, with exactly its score and sequence; `finished` only grows by
appending (both at this step and over any further iterations), and every
retained active candidate stems from a live (non-end-of-sequence)
hypothesis, so a finished hypothesis is never expanded further. -/
theorem beam_search_eos_moves_to_finished [LinearOrder R] [Add R] (M : Model V σ ι R)
    (eos beam : Nat) (st : BState V σ ι R) (hbeam : beam ≤ V)
    (h : Hyp V σ ι R) (hmem : h ∈ st.seqs) (hne : h.seq ≠ [])
    (hlast : (h.seq.getLast hne).val = eos) :
    ∃ st', stepBeam M eos beam st = some st' ∧
      (h.score, h.seq) ∈ st'.finished ∧
      (∃ tail, st'.finished = st.finished ++ tail) ∧
      (∀ c ∈ st'.seqs, ∃ g ∈ st.seqs, isEOSHyp eos g = false ∧
        ∃ t : Fin V, c.seq = g.seq ++ [t]) ∧
      ∀ (n : Nat) (st'' : BState V σ ι R), beamLoop M eos beam n st' = some st'' →
        ∃ tail2, st''.finished = st'.finished ++ tail2 := by
  have heos : isEOSHyp eos h = true := by
    rw [isEOSHyp, List.getLast?_eq_getLast _ hne]
    simp [hlast]
  refine ⟨_, stepBeam_eq hbeam st, ?_, ⟨_, rfl⟩, ?_, ?_⟩
  · exact List.mem_append.mpr (Or.inr (newlyFinished_mem hmem heos))
  · intro c hc
    have hc' : c ∈ candList M eos beam st.seqs :=
      ((sortDesc_perm Hyp.score _).mem_iff).mp (List.mem_of_mem_take hc)
    rcases mem_candList hc' with ⟨g, hg, hglive, t, rfl⟩
    exact ⟨g, hg, hglive, t, rfl⟩
  · intro n st'' hloop
    exact beamLoop_finished_append hloop

/-- C3, witness: the theorem applied to a concrete state holding one
hypothesis ending in the end-of-sequence token. -/
theorem beam_search_eos_moves_to_finished_witness :
    ∃ st', stepBeam cexM 2 2 wSt3 = some st' ∧
      (((-3 : ℤ), [(2 : Fin 4)]) ∈ st'.finished) ∧
      (∃ tail, st'.finished = wSt3.finished ++ tail) ∧
      (∀ c ∈ st'.seqs, ∃ g ∈ wSt3.seqs, isEOSHyp 2 g = false ∧
        ∃ t : Fin 4, c.seq = g.seq ++ [t]) ∧
      ∀ (n : Nat) (st'' : BState 4 Unit Nat ℤ), beamLoop cexM 2 2 n st' = some st'' →
        ∃ tail2, st''.finished = st'.finished ++ tail2 :=
  beam_search_eos_moves_to_finished cexM 2 2 wSt3 (by omega)
    ⟨-3, [2], some (), 3⟩ (by decide) (by decide) (by decide)

/-- C4: the decoding loop executes at most `maxLen` steps, does nothing
further once no active hypotheses remain, stops its budget early exactly
when the active set emptied after a step, and every sequence `beam_search`
returns has length at most `maxLen`. -/
theorem beam_search_len_le_max_len [LinearOrder R] [Add R] [Zero R]
    (M : Model V σ ι R) (eos beam maxLen : Nat) :
    (∀ (n : Nat) (fin : List (R × List (Fin V))),
        beamLoop M eos beam n ⟨fin, []⟩ = some ⟨fin, []⟩) ∧
    (∀ (st : BState V σ ι R) (c : Nat),
        beamLoopCount M eos beam maxLen (initState M) = some (st, c) →
          beamLoop M eos beam maxLen (initState M) = some st ∧ c ≤ maxLen ∧
            (c < maxLen → st.seqs = [])) ∧
    (beam ≤ V → ∃ r, beamLoopCount M eos beam maxLen (initState M) = some r) ∧
    ∀ out, beam_search M eos beam maxLen = some out → out.length ≤ maxLen := by
  refine ⟨beamLoop_of_empty, fun st c hc => beamLoopCount_spec hc,
    fun hbeam => beamLoopCount_isSome hbeam maxLen _, ?_⟩
  intro out hout
  rcases beam_search_inv hout with ⟨st, best, hrun, hbest, rfl⟩
  have hinit : lenBound 0 (initState M) := by
    refine ⟨by simp [initState], fun g hg => ?_⟩
    rcases List.mem_singleton.mp hg with rfl
    simp
  have hlb : lenBound (0 + maxLen) st := beamLoop_lenBound hrun hinit
  rw [Nat.zero_add] at hlb
  rcases pyMax_eq_some hbest with ⟨hmem, _⟩
  rw [mergedList] at hmem
  rcases List.mem_append.mp hmem with hmem | hmem
  · exact hlb.1 best hmem
  · rcases List.mem_map.mp hmem with ⟨g, hg, hge⟩
    rw [← hge]
    exact hlb.2 g hg

/-- C4, witness: the length bound applied to the run of the concrete
decoder, whose returned sequence `[0, 1]` indeed has length at most 2. -/
theorem beam_search_len_le_max_len_witness :
    ([(0 : Fin 4), (1 : Fin 4)] : List (Fin 4)).length ≤ 2 :=
  (beam_search_len_le_max_len cexM 2 2 2).2.2.2 [0, 1] (by decide)

/-- C9, counterexample: with beam width 5 ≥ 1, max_len 1 ≥ 1 but a
vocabulary of size 4, `beam_search` raises inside `topk` (modelled as
`none`) rather than returning a non-empty sequence, refuting the claim for
every beam width ≥ 1. -/
theorem beam_search_beam_gt_vocab_cex :
    1 ≤ 5 ∧ 1 ≤ 1 ∧ beam_search cexM 2 5 1 = none := by
  exact ⟨by decide, by decide, by decide⟩

/-- C9, amended: for a beam width between 1 and the vocabulary size and
max_len ≥ 1, the end-of-sequence test never inspects an empty sequence
(the guard returns false on those), the final selection happens over a
non-empty merged list, and the returned sequence exists and is non-empty. -/
theorem beam_search_safe_nonempty [LinearOrder R] [Add R] [Zero R]
    (M : Model V σ ι R) (eos beam maxLen : Nat)
    (hone : 1 ≤ beam) (hbeam : beam ≤ V) (hlen : 1 ≤ maxLen) :
    (∀ h : Hyp V σ ι R, h.seq = [] → isEOSHyp eos h = false) ∧
    ∃ st, beamSearchRun M eos beam maxLen = some st ∧ mergedList st ≠ [] ∧
      ∃ out, beam_search M eos beam maxLen = some out ∧ out ≠ [] := by
  refine ⟨fun h hh => by rw [isEOSHyp, hh]; rfl, ?_⟩
  rcases beamLoop_isSome hbeam maxLen (initState M) with ⟨st, hst⟩
  have hunion : st.finished ≠ [] ∨ st.seqs ≠ [] :=
    beamLoop_pres (fun s => s.finished ≠ [] ∨ s.seqs ≠ [])
      (fun s s' h1 h2 => stepBeam_union_ne hone h1 h2) hst
      (Or.inr (by simp [initState]))
  have hmerged : mergedList st ≠ [] := by
    intro hnil
    rw [mergedList, List.append_eq_nil] at hnil
    rcases hunion with h | h
    · exact h hnil.1
    · exact h (List.map_eq_nil_iff.mp hnil.2)
  -- every sequence recorded in the final state is non-empty
  have hallNE : (∀ p ∈ st.finished, p.2 ≠ []) ∧ ∀ g ∈ st.seqs, g.seq ≠ [] := by
    rcases maxLen with _ | n
    · omega
    · have hstep1 := @stepBeam_eq V σ ι R _ _ M eos beam hbeam (initState M)
      set st₁ : BState V σ ι R :=
        ⟨(initState M).finished ++ newlyFinished eos (initState M).seqs,
          (sortDesc Hyp.score (candList M eos beam (initState M).seqs)).take beam⟩
        with hst₁def
      have hNE1 : (∀ p ∈ st₁.finished, p.2 ≠ []) ∧ ∀ g ∈ st₁.seqs, g.seq ≠ [] := by
        constructor
        · intro p hp
          rw [hst₁def] at hp
          rw [show (initState M).finished ++ newlyFinished eos (initState M).seqs
              = [] from rfl] at hp
          cases hp
        · intro c hc
          rw [hst₁def] at hc
          have hc' : c ∈ candList M eos beam (initState M).seqs :=
            ((sortDesc_perm Hyp.score _).mem_iff).mp (List.mem_of_mem_take hc)
          rcases mem_candList hc' with ⟨g, _, _, t, rfl⟩
          simp
      have hrun : beamLoop M eos beam (n + 1) (initState M) = some st := hst
      simp only [beamLoop_succ, hstep1] at hrun
      by_cases hemp : st₁.seqs.isEmpty
      · rw [if_pos hemp, Option.some_inj] at hrun
        exact hrun ▸ hNE1
      · rw [if_neg hemp] at hrun
        exact beamLoop_pres
          (fun s => (∀ p ∈ s.finished, p.2 ≠ []) ∧ ∀ g ∈ s.seqs, g.seq ≠ [])
          (fun s s' h1 h2 => stepBeam_allNE h1 h2) hrun hNE1
  rcases Option.isSome_iff_exists.mp (pyMax_isSome hmerged) with ⟨best, hbest⟩
  rcases pyMax_eq_some hbest with ⟨hmem, _⟩
  refine ⟨st, hst, hmerged, best.2, ?_, ?_⟩
  · rw [beam_search, show beamSearchRun M eos beam maxLen = some st from hst,
      Option.some_bind, hbest]
    rfl
  · rw [mergedList] at hmem
    rcases List.mem_append.mp hmem with hmem | hmem
    · exact hallNE.1 best hmem
    · rcases List.mem_map.mp hmem with ⟨g, hg, hge⟩
      rw [← hge]
      exact hallNE.2 g hg

/-- C9, witness: the amended theorem applied to the concrete decoder. -/
theorem beam_search_safe_nonempty_witness :
    (∀ h : Hyp 4 Unit Nat ℤ, h.seq = [] → isEOSHyp 2 h = false) ∧
    ∃ st, beamSearchRun cexM 2 2 2 = some st ∧ mergedList st ≠ [] ∧
      ∃ out, beam_search cexM 2 2 2 = some out ∧ out ≠ [] :=
  beam_search_safe_nonempty cexM 2 2 2 (by omega) (by omega) (by omega)

/-! ## Lemmas about tokenization and the vocabulary maps -/

theorem char_ofNat_toNat {n : Nat} (h : n < 55296) : (Char.ofNat n).toNat = n := by
  rw [Char.ofNat, dif_pos (Or.inl h)]
  rfl

/-- `Char.toLower` never produces a basic-latin capital letter. -/
theorem toLower_toNat_not_upper (c : Char) :
    ¬ (65 ≤ (Char.toLower c).toNat ∧ (Char.toLower c).toNat ≤ 90) := by
  rw [Char.toLower]
  by_cases h : c.toNat ≥ 65 ∧ c.toNat ≤ 90
  · rw [if_pos h, char_ofNat_toNat (by omega)]
    omega
  · rw [if_neg h]
    omega

theorem toLower_ne_of_upper (u : Char) (hu : 65 ≤ u.toNat ∧ u.toNat ≤ 90) (c : Char) :
    Char.toLower c ≠ u := by
  intro he
  have h2 := toLower_toNat_not_upper c
  rw [he] at h2
  exact h2 hu

/-- Every character of every token produced by the whitespace split comes
from the input or from the current partial token. -/
theorem splitWsAux_chars :
    ∀ (l cur tok : PyStr), tok ∈ splitWsAux l cur → ∀ ch ∈ tok, ch ∈ l ∨ ch ∈ cur := by
  intro l
  induction l with
  | nil =>
    intro cur tok htok ch hch
    rw [splitWsAux] at htok
    by_cases hc : cur = []
    · rw [if_pos hc] at htok; cases htok
    · rw [if_neg hc] at htok
      rcases List.mem_singleton.mp htok with rfl
      exact Or.inr (List.mem_reverse.mp hch)
  | cons c cs ih =>
    intro cur tok htok ch hch
    rw [splitWsAux] at htok
    by_cases hws : isPyWs c
    · rw [if_pos hws] at htok
      by_cases hc : cur = []
      · rw [if_pos hc] at htok
        rcases ih [] tok htok ch hch with h | h
        · exact Or.inl (List.mem_cons_of_mem c h)
        · cases h
      · rw [if_neg hc] at htok
        rcases List.mem_cons.mp htok with rfl | htok
        · exact Or.inr (List.mem_reverse.mp hch)
        · rcases ih [] tok htok ch hch with h | h
          · exact Or.inl (List.mem_cons_of_mem c h)
          · cases h
    · rw [if_neg hws] at htok
      rcases ih (c :: cur) tok htok ch hch with h | h
      · exact Or.inl (List.mem_cons_of_mem c h)
      · rcases List.mem_cons.mp h with rfl | h
        · exact Or.inl (List.mem_cons_self ch cs)
        · exact Or.inr h

theorem mem_pyStrip {s : PyStr} {c : Char} (h : c ∈ pyStrip s) : c ∈ s := by
  rw [pyStrip, List.mem_reverse] at h
  have h1 : c ∈ (s.dropWhile isPyWs).reverse :=
    (List.dropWhile_sublist isPyWs).subset h
  rw [List.mem_reverse] at h1
  exact (List.dropWhile_sublist isPyWs).subset h1

/-- Every character of every token of `tokenize` is in the image of
`Char.toLower`. -/
theorem tokenize_chars {text tok : PyStr} (htok : tok ∈ tokenize text) :
    ∀ ch ∈ tok, ∃ c₀, ch = Char.toLower c₀ := by
  intro ch hch
  rcases splitWsAux_chars (pyStrip (pyLower text)) [] tok htok ch hch with h | h
  · have h2 : ch ∈ pyLower text := mem_pyStrip h
    rcases List.mem_map.mp h2 with ⟨c₀, _, hc₀⟩
    exact ⟨c₀, hc₀.symm⟩
  · cases h

/-- No token produced by `tokenize` equals one of the four special tokens:
the specials contain capital letters, and tokenization lowercases. -/
theorem tokenize_ne_special {text tok : PyStr} (htok : tok ∈ tokenize text) :
    tok ≠ padS ∧ tok ≠ sosS ∧ tok ≠ eosS ∧ tok ≠ unkS := by
  have hchars := tokenize_chars htok
  refine ⟨?_, ?_, ?_, ?_⟩ <;> intro he
  · have hP : 'P' ∈ tok := by rw [he]; decide
    rcases hchars 'P' hP with ⟨c₀, hc₀⟩
    exact toLower_ne_of_upper 'P' (by decide) c₀ hc₀.symm
  · have hS : 'S' ∈ tok := by rw [he]; decide
    rcases hchars 'S' hS with ⟨c₀, hc₀⟩
    exact toLower_ne_of_upper 'S' (by decide) c₀ hc₀.symm
  · have hE : 'E' ∈ tok := by rw [he]; decide
    rcases hchars 'E' hE with ⟨c₀, hc₀⟩
    exact toLower_ne_of_upper 'E' (by decide) c₀ hc₀.symm
  · have hU : 'U' ∈ tok := by rw [he]; decide
    rcases hchars 'U' hU with ⟨c₀, hc₀⟩
    exact toLower_ne_of_upper 'U' (by decide) c₀ hc₀.symm

theorem dictGet_eq_none_iff {α β : Type} [DecidableEq α] {d : List (α × β)} {k : α} :
    dictGet d k = none ↔ ∀ p ∈ d, p.1 ≠ k := by
  induction d with
  | nil => simp [dictGet_nil]
  | cons p d ih =>
    rw [dictGet_cons]
    by_cases hpk : p.1 = k
    · simp [hpk]
    · simp only [if_neg hpk, ih, List.mem_cons]
      constructor
      · intro h q hq
        rcases hq with rfl | hq
        · exact hpk
        · exact h q hq
      · intro h q hq
        exact h q (Or.inr hq)

/-- Keys of an updated `Counter`: the old keys or the updated token. -/
theorem counterAdd_key {freqs : List (PyStr × Nat)} {tok : PyStr} {p : PyStr × Nat}
    (hp : p ∈ counterAdd freqs tok) : (∃ q ∈ freqs, p.1 = q.1) ∨ p.1 = tok := by
  rw [counterAdd] at hp
  rcases h : dictGet freqs tok with _ | n <;> rw [h] at hp
  · rcases List.mem_append.mp hp with h' | h'
    · exact Or.inl ⟨p, h', rfl⟩
    · rcases List.mem_singleton.mp h' with rfl
      exact Or.inr rfl
  · rcases mem_dictSet hp with h' | h'
    · exact Or.inl ⟨p, h', rfl⟩
    · rw [h']
      exact Or.inr rfl

/-- `Counter` updates preserve key distinctness. -/
theorem counterAdd_keys_nodup {freqs : List (PyStr × Nat)} {tok : PyStr}
    (h : (freqs.map Prod.fst).Nodup) :
    ((counterAdd freqs tok).map Prod.fst).Nodup := by
  rw [counterAdd]
  rcases hg : dictGet freqs tok with _ | n
  · rw [List.map_append]
    rw [List.nodup_append]
    refine ⟨h, List.nodup_singleton _, fun a ha hb => ?_⟩
    rcases List.mem_singleton.mp hb with rfl
    rcases List.mem_map.mp ha with ⟨q, hq, hqe⟩
    exact (dictGet_eq_none_iff.mp hg q hq) hqe
  · have hkeys : (dictSet freqs tok (n + 1)).map Prod.fst = freqs.map Prod.fst := by
      rw [dictSet, if_pos (by rw [hg]; rfl), List.map_map]
      apply List.map_congr_left
      intro p hp
      by_cases hpt : p.1 = tok <;> simp [hpt]
    rw [hkeys]
    exact h

theorem foldl_counterAdd_key (toks : List PyStr) :
    ∀ (f₀ : List (PyStr × Nat)) (p : PyStr × Nat), p ∈ toks.foldl counterAdd f₀ →
      (∃ q ∈ f₀, p.1 = q.1) ∨ p.1 ∈ toks := by
  induction toks with
  | nil => intro f₀ p hp; exact Or.inl ⟨p, hp, rfl⟩
  | cons t ts ih =>
    intro f₀ p hp
    rw [List.foldl_cons] at hp
    rcases ih (counterAdd f₀ t) p hp with h | h
    · rcases h with ⟨q, hq, hqe⟩
      rcases counterAdd_key hq with h' | h'
      · rcases h' with ⟨r, hr, hre⟩
        exact Or.inl ⟨r, hr, by rw [hqe, hre]⟩
      · exact Or.inr (by rw [hqe, h']; exact List.mem_cons_self t ts)
    · exact Or.inr (List.mem_cons_of_mem t h)

theorem foldl_counterAdd_nodup (toks : List PyStr) :
    ∀ f₀ : List (PyStr × Nat), (f₀.map Prod.fst).Nodup →
      ((toks.foldl counterAdd f₀).map Prod.fst).Nodup := by
  induction toks with
  | nil => intro f₀ h; exact h
  | cons t ts ih =>
    intro f₀ h
    rw [List.foldl_cons]
    exact ih _ (counterAdd_keys_nodup h)

/-- Every key of the frequency counter is a token of some sentence. -/
theorem mem_buildFreqs_key {sents : List PyStr} {p : PyStr × Nat}
    (hp : p ∈ buildFreqs sents) : ∃ s ∈ sents, p.1 ∈ tokenize s := by
  have haux : ∀ (ss : List PyStr) (f₀ : List (PyStr × Nat)) (q : PyStr × Nat),
      q ∈ ss.foldl (fun f s => (tokenize s).foldl counterAdd f) f₀ →
      (∃ r ∈ f₀, q.1 = r.1) ∨ ∃ s ∈ ss, q.1 ∈ tokenize s := by
    intro ss
    induction ss with
    | nil => intro f₀ q hq; exact Or.inl ⟨q, hq, rfl⟩
    | cons s ss ih =>
      intro f₀ q hq
      rw [List.foldl_cons] at hq
      rcases ih _ q hq with h | h
      · rcases h with ⟨r, hr, hre⟩
        rcases foldl_counterAdd_key (tokenize s) f₀ r hr with h' | h'
        · rcases h' with ⟨r2, hr2, hre2⟩
          exact Or.inl ⟨r2, hr2, by rw [hre, hre2]⟩
        · exact Or.inr ⟨s, List.mem_cons_self s ss, by rw [hre]; exact h'⟩
      · rcases h with ⟨s', hs', h'⟩
        exact Or.inr ⟨s', List.mem_cons_of_mem s hs', h'⟩
  rcases haux sents [] p hp with h | h
  · rcases h with ⟨q, hq, _⟩; cases hq
  · exact h

/-- The frequency counter has pairwise distinct keys. -/
theorem buildFreqs_keys_nodup (sents : List PyStr) :
    ((buildFreqs sents).map Prod.fst).Nodup := by
  have haux : ∀ (ss : List PyStr) (f₀ : List (PyStr × Nat)), (f₀.map Prod.fst).Nodup →
      ((ss.foldl (fun f s => (tokenize s).foldl counterAdd f) f₀).map Prod.fst).Nodup := by
    intro ss
    induction ss with
    | nil => intro f₀ h; exact h
    | cons s ss ih =>
      intro f₀ h
      rw [List.foldl_cons]
      exact ih _ (foldl_counterAdd_nodup _ _ h)
  exact haux sents [] (by simp)

theorem dictGet_mem {α β : Type} [DecidableEq α] {d : List (α × β)} {k : α} {v : β}
    (h : dictGet d k = some v) : (k, v) ∈ d := by
  induction d with
  | nil => cases h
  | cons p d ih =>
    rw [dictGet_cons] at h
    by_cases hpk : p.1 = k
    · rw [if_pos hpk, Option.some_inj] at h
      exact List.mem_cons.mpr (Or.inl (Prod.ext hpk h).symm)
    · rw [if_neg hpk] at h
      exact List.mem_cons_of_mem _ (ih h)

theorem dictGet_of_mem {α β : Type} [DecidableEq α] {d : List (α × β)} {p : α × β}
    (hp : p ∈ d) (hnd : (d.map Prod.fst).Nodup) : dictGet d p.1 = some p.2 := by
  induction d with
  | nil => cases hp
  | cons q d ih =>
    rw [List.map_cons, List.nodup_cons] at hnd
    rcases List.mem_cons.mp hp with rfl | hp
    · rw [dictGet_cons, if_pos rfl]
    · have hne : ¬ q.1 = p.1 := fun he =>
        hnd.1 (he ▸ List.mem_map.mpr ⟨p, hp, rfl⟩)
      rw [dictGet_cons, if_neg hne]
      exact ih hp hnd.2

/-- Flipping an association list with distinct keys and distinct values
yields a mutually inverse pair — this is `stoi = {v:k for k,v in itos}`. -/
theorem inverse_of_flip (l : List (Nat × PyStr))
    (hkeys : (l.map Prod.fst).Nodup) (hvals : (l.map Prod.snd).Nodup) :
    Inverse (l.map fun p => (p.2, p.1)) l := by
  have hflipkeys : ((l.map fun p => (p.2, p.1)).map Prod.fst).Nodup := by
    rw [List.map_map]
    exact hvals
  intro k v
  constructor
  · intro h
    have hmem := dictGet_mem h
    rcases List.mem_map.mp hmem with ⟨q, hq, hqe⟩
    have h1 : q.2 = k := congrArg Prod.fst hqe
    have h2 : q.1 = v := congrArg Prod.snd hqe
    rw [← h1, ← h2]
    exact (by rw [dictGet_of_mem hq hkeys])
  · intro h
    have hmem := dictGet_mem h
    have hflip : ((k, v) : PyStr × Nat) ∈ l.map fun p => (p.2, p.1) :=
      List.mem_map.mpr ⟨(v, k), hmem, rfl⟩
    exact dictGet_of_mem hflip hflipkeys

theorem buildFold_cons (ft : Nat) (tok : PyStr) (f : Nat) (rest : List (PyStr × Nat))
    (st : List (PyStr × Nat)) (it : List (Nat × PyStr)) (idx : Nat) :
    buildFold ft ((tok, f) :: rest) (st, it, idx) =
      if ft ≤ f then buildFold ft rest (dictSet st tok idx, dictSet it idx tok, idx + 1)
      else buildFold ft rest (st, it, idx) := rfl

/-- `build` leaves `stoi` lookups unchanged at any key that is not a
counter key. -/
theorem buildFold_stoi_get (ft : Nat) :
    ∀ (freqs : List (PyStr × Nat)) (st : List (PyStr × Nat)) (it : List (Nat × PyStr))
      (idx : Nat) (k : PyStr), (∀ p ∈ freqs, p.1 ≠ k) →
      dictGet (buildFold ft freqs (st, it, idx)).1 k = dictGet st k := by
  intro freqs
  induction freqs with
  | nil => intro st it idx k _; rfl
  | cons q rest ih =>
    intro st it idx k hk
    rcases q with ⟨tok, f⟩
    rw [buildFold_cons]
    by_cases hf : ft ≤ f
    · rw [if_pos hf, ih _ _ _ k fun p hp => hk p (List.mem_cons_of_mem _ hp)]
      rw [dictGet_dictSet,
        if_neg fun he => hk (tok, f) (List.mem_cons_self _ _) he.symm]
    · rw [if_neg hf]
      exact ih _ _ _ k fun p hp => hk p (List.mem_cons_of_mem _ hp)

/-- `build` leaves `itos` lookups unchanged below the starting index. -/
theorem buildFold_itos_get (ft : Nat) :
    ∀ (freqs : List (PyStr × Nat)) (st : List (PyStr × Nat)) (it : List (Nat × PyStr))
      (idx : Nat) (i : Nat), i < idx →
      dictGet (buildFold ft freqs (st, it, idx)).2.1 i = dictGet it i := by
  intro freqs
  induction freqs with
  | nil => intro st it idx i _; rfl
  | cons q rest ih =>
    intro st it idx i hi
    rcases q with ⟨tok, f⟩
    rw [buildFold_cons]
    by_cases hf : ft ≤ f
    · rw [if_pos hf, ih _ _ _ _ (by omega)]
      rw [dictGet_dictSet, if_neg (by omega)]
    · rw [if_neg hf]
      exact ih _ _ _ i hi

/-- The main `build` invariant: starting from mutually inverse maps whose
stored indices all lie below the running index, and folding in distinct
fresh tokens, the maps stay mutually inverse and every entry is either an
original entry or one stored at an index at least the starting index. -/
theorem buildFold_inverse (ft : Nat) :
    ∀ (freqs : List (PyStr × Nat)) (st : List (PyStr × Nat)) (it : List (Nat × PyStr))
      (idx : Nat), Inverse st it →
      (∀ p ∈ st, p.2 < idx) →
      (∀ q ∈ it, q.1 < idx) →
      (∀ p ∈ freqs, dictGet st p.1 = none) →
      (freqs.map Prod.fst).Nodup →
      Inverse (buildFold ft freqs (st, it, idx)).1 (buildFold ft freqs (st, it, idx)).2.1 ∧
      (∀ p ∈ (buildFold ft freqs (st, it, idx)).1, p ∈ st ∨ idx ≤ p.2) ∧
      (∀ q ∈ (buildFold ft freqs (st, it, idx)).2.1, q ∈ it ∨ idx ≤ q.1) := by
  intro freqs
  induction freqs with
  | nil =>
    intro st it idx hInv _ _ _ _
    exact ⟨hInv, fun p hp => Or.inl hp, fun q hq => Or.inl hq⟩
  | cons qf rest ih =>
    intro st it idx hInv hstb hitb hfresh hnodup
    rcases qf with ⟨tok, f⟩
    rw [buildFold_cons]
    rw [List.map_cons, List.nodup_cons] at hnodup
    by_cases hf : ft ≤ f
    · rw [if_pos hf]
      have htokfresh : dictGet st tok = none := hfresh (tok, f) (List.mem_cons_self _ _)
      have hInv' : Inverse (dictSet st tok idx) (dictSet it idx tok) := by
        intro k v
        rw [dictGet_dictSet, dictGet_dictSet]
        by_cases hk : k = tok
        · subst hk
          by_cases hv : v = idx
          · subst hv; simp
          · rw [if_pos rfl, if_neg hv]
            constructor
            · intro hcon
              exact absurd (Option.some_inj.mp hcon).symm hv
            · intro hcon
              have h2 := (hInv k v).mpr hcon
              rw [htokfresh] at h2
              cases h2
        · by_cases hv : v = idx
          · subst hv
            rw [if_neg hk, if_pos rfl]
            constructor
            · intro hcon
              have := hstb _ (dictGet_mem hcon)
              omega
            · intro hcon
              exact absurd (Option.some_inj.mp hcon).symm hk
          · rw [if_neg hk, if_neg hv]
            exact hInv k v
      have hstb' : ∀ p ∈ dictSet st tok idx, p.2 < idx + 1 := by
        intro p hp
        rcases mem_dictSet hp with hp | rfl
        · have := hstb p hp; omega
        · omega
      have hitb' : ∀ q ∈ dictSet it idx tok, q.1 < idx + 1 := by
        intro q hq
        rcases mem_dictSet hq with hq | rfl
        · have := hitb q hq; omega
        · omega
      have hfresh' : ∀ p ∈ rest, dictGet (dictSet st tok idx) p.1 = none := by
        intro p hp
        rw [dictGet_dictSet]
        have hne : ¬ p.1 = tok := by
          intro he
          exact hnodup.1 (he ▸ List.mem_map.mpr ⟨p, hp, rfl⟩)
        rw [if_neg hne]
        exact hfresh p (List.mem_cons_of_mem _ hp)
      rcases ih (dictSet st tok idx) (dictSet it idx tok) (idx + 1)
        hInv' hstb' hitb' hfresh' hnodup.2 with ⟨hI, hS, hT⟩
      refine ⟨hI, fun p hp => ?_, fun q hq => ?_⟩
      · rcases hS p hp with hp' | hp'
        · rcases mem_dictSet hp' with hp'' | rfl
          · exact Or.inl hp''
          · exact Or.inr (by omega)
        · exact Or.inr (by omega)
      · rcases hT q hq with hq' | hq'
        · rcases mem_dictSet hq' with hq'' | rfl
          · exact Or.inl hq''
          · exact Or.inr (by omega)
        · exact Or.inr (by omega)
    · rw [if_neg hf]
      exact ih st it idx hInv hstb hitb
        (fun p hp => hfresh p (List.mem_cons_of_mem _ hp)) hnodup.2

theorem init_stoi_eq (ft : Nat) :
    (Vocabulary.init ft).stoi = [(padS, 0), (sosS, 1), (eosS, 2), (unkS, 3)] := rfl

theorem init_itos_eq (ft : Nat) :
    (Vocabulary.init ft).itos = [(0, padS), (1, sosS), (2, eosS), (3, unkS)] := rfl

theorem init_inverse (ft : Nat) :
    Inverse (Vocabulary.init ft).stoi (Vocabulary.init ft).itos :=
  inverse_of_flip [(0, padS), (1, sosS), (2, eosS), (3, unkS)] (by decide) (by decide)

/-- No counter key collides with the four special tokens already present
in a fresh vocabulary's string-to-index map. -/
theorem buildFreqs_fresh_init (ft : Nat) (sents : List PyStr) :
    ∀ p ∈ buildFreqs sents, dictGet (Vocabulary.init ft).stoi p.1 = none := by
  intro p hp
  rcases mem_buildFreqs_key hp with ⟨s, _, htok⟩
  rcases tokenize_ne_special htok with ⟨h1, h2, h3, h4⟩
  rw [init_stoi_eq, dictGet_eq_none_iff]
  intro q hq
  simp only [List.mem_cons, List.not_mem_nil, or_false] at hq
  rcases hq with rfl | rfl | rfl | rfl
  · exact fun he => h1 he.symm
  · exact fun he => h2 he.symm
  · exact fun he => h3 he.symm
  · exact fun he => h4 he.symm

theorem build_stoi_eq (v : Vocabulary) (sents : List PyStr) :
    (v.build sents).stoi =
      (buildFold v.freq_threshold (buildFreqs sents) (v.stoi, v.itos, 4)).1 := rfl

theorem build_itos_eq (v : Vocabulary) (sents : List PyStr) :
    (v.build sents).itos =
      (buildFold v.freq_threshold (buildFreqs sents) (v.stoi, v.itos, 4)).2.1 := rfl

theorem mapM_option_some {α β : Type} (g : α → β) :
    ∀ l : List α, (l.mapM fun a => some (g a)) = some (l.map g) := by
  intro l
  induction l with
  | nil => rfl
  | cons a l ih => rw [List.mapM_cons, ih]; rfl

/-! ## Claim theorems about `Vocabulary` -/

/-- C6: whenever `stoi` maps `'<UNK>'` to 3 (as it does after `__init__`,
and `build` never changes that entry), `numericalize` maps every token of
the lowercased whitespace tokenization to its stored index, and every
token absent from `stoi` to the fixed out-of-vocabulary index 3. -/
theorem numericalize_unknown_to_unk (v : Vocabulary) (text : PyStr)
    (hunk : dictGet v.stoi unkS = some 3) :
    v.numericalize text =
      some ((tokenize text).map fun tok => (dictGet v.stoi tok).getD 3) ∧
    (∀ ft : Nat, dictGet (Vocabulary.init ft).stoi unkS = some 3) ∧
    ∀ sents : List PyStr, dictGet (v.build sents).stoi unkS = dictGet v.stoi unkS := by
  refine ⟨?_, fun ft => by rw [init_stoi_eq]; decide, fun sents => ?_⟩
  · rw [Vocabulary.numericalize]
    simp only [hunk, Option.map_some']
    exact mapM_option_some _ _
  · rw [build_stoi_eq]
    refine buildFold_stoi_get _ _ _ _ _ unkS fun p hp => ?_
    rcases mem_buildFreqs_key hp with ⟨s, _, htok⟩
    exact (tokenize_ne_special htok).2.2.2

/-- C6, witness: the theorem applied to a concrete fresh vocabulary and a
concrete text. -/
theorem numericalize_unknown_to_unk_witness :
    (Vocabulary.init 5).numericalize "hello world".data =
      some ((tokenize "hello world".data).map fun tok =>
        (dictGet (Vocabulary.init 5).stoi tok).getD 3) :=
  (numericalize_unknown_to_unk (Vocabulary.init 5) "hello world".data (by decide)).1

/-- C10, counterexample: after two `build` calls (thresholds met), `stoi`
maps `"a"` to 4 while `itos` maps 4 to `"b"`: the maps are no longer
mutually inverse, because the second call restarted its index counter at
4 and overwrote `itos[4]`. -/
theorem vocabulary_two_builds_cex :
    dictGet cexV.stoi "a".data = some 4 ∧ dictGet cexV.itos 4 = some "b".data ∧
    ¬ Inverse cexV.stoi cexV.itos := by
  refine ⟨by decide, by decide, fun hInv => ?_⟩
  have h2 := (hInv "a".data 4).mp (by decide)
  exact absurd h2 (by decide)

/-- C10, amended: after `__init__`, and after a single `build` call on a
fresh vocabulary, indices 0, 1, 2, 3 map to the four special tokens,
`build` adds entries only at indices at least 4, and the two maps are
mutually inverse.  (A second `build` call can break mutual inverseness,
because the index counter restarts at 4.) -/
theorem vocabulary_init_single_build_inverse (ft : Nat) (sents : List PyStr) :
    (dictGet (Vocabulary.init ft).itos 0 = some padS ∧
     dictGet (Vocabulary.init ft).itos 1 = some sosS ∧
     dictGet (Vocabulary.init ft).itos 2 = some eosS ∧
     dictGet (Vocabulary.init ft).itos 3 = some unkS ∧
     Inverse (Vocabulary.init ft).stoi (Vocabulary.init ft).itos) ∧
    (dictGet ((Vocabulary.init ft).build sents).itos 0 = some padS ∧
     dictGet ((Vocabulary.init ft).build sents).itos 1 = some sosS ∧
     dictGet ((Vocabulary.init ft).build sents).itos 2 = some eosS ∧
     dictGet ((Vocabulary.init ft).build sents).itos 3 = some unkS ∧
     Inverse ((Vocabulary.init ft).build sents).stoi ((Vocabulary.init ft).build sents).itos ∧
     (∀ p ∈ ((Vocabulary.init ft).build sents).stoi,
        p ∈ (Vocabulary.init ft).stoi ∨ 4 ≤ p.2) ∧
     ∀ q ∈ ((Vocabulary.init ft).build sents).itos,
        q ∈ (Vocabulary.init ft).itos ∨ 4 ≤ q.1) := by
  rcases buildFold_inverse ft (buildFreqs sents) (Vocabulary.init ft).stoi
      (Vocabulary.init ft).itos 4 (init_inverse ft)
      (by rw [init_stoi_eq]; decide) (by rw [init_itos_eq]; decide)
      (buildFreqs_fresh_init ft sents) (buildFreqs_keys_nodup sents)
    with ⟨hI, hS, hT⟩
  have hsmall : ∀ i : Nat, i < 4 →
      dictGet ((Vocabulary.init ft).build sents).itos i =
        dictGet (Vocabulary.init ft).itos i := by
    intro i hi
    rw [build_itos_eq]
    exact buildFold_itos_get _ _ _ _ _ i hi
  refine ⟨⟨by rw [init_itos_eq]; decide, by rw [init_itos_eq]; decide,
    by rw [init_itos_eq]; decide, by rw [init_itos_eq]; decide, init_inverse ft⟩,
    ?_, ?_, ?_, ?_, ?_, ?_, ?_⟩
  · rw [hsmall 0 (by omega), init_itos_eq]; decide
  · rw [hsmall 1 (by omega), init_itos_eq]; decide
  · rw [hsmall 2 (by omega), init_itos_eq]; decide
  · rw [hsmall 3 (by omega), init_itos_eq]; decide
  · rw [build_stoi_eq, build_itos_eq]; exact hI
  · rw [build_stoi_eq]; exact hS
  · rw [build_itos_eq]; exact hT

/-- C10, witness: the amended theorem applied to a concrete single-build
vocabulary. -/
theorem vocabulary_init_single_build_inverse_witness :
    dictGet ((Vocabulary.init 1).build ["a".data]).itos 0 = some padS :=
  (vocabulary_init_single_build_inverse 1 ["a".data]).2.1

/-! ## Lemmas about `FlickrDataset` and `train` -/

theorem except_ok_bind {ε α β : Type} (a : α) (f : α → Except ε β) :
    (Except.ok a : Except ε α) >>= f = f a := rfl

theorem except_error_bind {ε α β : Type} (e : ε) (f : α → Except ε β) :
    (Except.error e : Except ε α) >>= f = Except.error e := rfl

theorem except_map_error {ε α β : Type} (g : α → β) (e : ε) :
    (Except.error e : Except ε α).map g = Except.error e := rfl

theorem except_map_ok {ε α β : Type} (g : α → β) (a : α) :
    (Except.ok a : Except ε α).map g = Except.ok (g a) := rfl

/-- When both existence checks pass, construction is the mapped result of
unpacking all parsed entries. -/
theorem flickrInit_ok_eq (fs : FileSys) (d f : PyStr) (ft : Nat)
    (h1 : fs.isDir d = true) (h2 : fs.isFile f = true) :
    flickrInit fs d f ft =
      ((captionsData (fs.lines f)).mapM unpackSnd).map fun caps =>
        { data := captionsData (fs.lines f), img_dir := d,
          vocab := (Vocabulary.init ft).build caps } := by
  rw [flickrInit, h1, h2]
  rfl

/-- The implicit pair unpacking succeeds exactly on two-field entries. -/
theorem unpackSnd_ok_iff (e : List PyStr) :
    (∃ c, unpackSnd e = Except.ok c) ↔ e.length = 2 := by
  match e with
  | [] => simp [unpackSnd]
  | [a] => simp [unpackSnd]
  | [a, b] => exact ⟨fun _ => rfl, fun _ => ⟨b, rfl⟩⟩
  | a :: b :: c :: r => simp [unpackSnd]

/-- Unpacking all entries succeeds exactly when every entry has two
fields. -/
theorem mapM_unpackSnd_ok_iff : ∀ l : List (List PyStr),
    (∃ caps, l.mapM unpackSnd = Except.ok caps) ↔ ∀ entry ∈ l, entry.length = 2 := by
  intro l
  induction l with
  | nil =>
    constructor
    · intro _ e he; cases he
    · intro _; exact ⟨[], rfl⟩
  | cons e l ih =>
    rw [List.mapM_cons]
    constructor
    · rintro ⟨caps, hcaps⟩ entry hentry
      rcases hu : unpackSnd e with err | c
      · rw [hu, except_error_bind] at hcaps; cases hcaps
      · rw [hu, except_ok_bind] at hcaps
        rcases hl : l.mapM unpackSnd with err | caps'
        · rw [hl, except_error_bind] at hcaps; cases hcaps
        · rcases List.mem_cons.mp hentry with rfl | hentry
          · exact (unpackSnd_ok_iff entry).mp ⟨c, hu⟩
          · exact ih.mp ⟨caps', hl⟩ entry hentry
    · intro h
      rcases (unpackSnd_ok_iff e).mpr (h e (List.mem_cons_self e l)) with ⟨c, hc⟩
      rcases ih.mpr (fun entry he => h entry (List.mem_cons_of_mem _ he)) with ⟨caps, hcaps⟩
      refine ⟨c :: caps, ?_⟩
      rw [hc, except_ok_bind, hcaps, except_ok_bind]
      rfl

/-- The epoch loop never writes anything: the write log passes through. -/
theorem runEpochs_writes {E D B : Type} (upd : E × D → B → E × D) (batches : List B) :
    ∀ (n : Nat) (w : E × D) (log : WriteLog E D),
      (runEpochs upd batches n (w, log)).2 = log := by
  intro n
  induction n with
  | zero => intro w log; rfl
  | succ n ih => intro w log; exact ih _ _

/-! ## Claim theorems about `FlickrDataset` and `train` -/

/-- C8: each line of the captions file contributes independently to
`self.data`: a line without a tab character is silently skipped, and a
line with a tab contributes exactly one entry, the tab-split of its
stripped text. -/
theorem captionsData_per_line (l₁ l₂ : List PyStr) (ln : PyStr) :
    captionsData (l₁ ++ ln :: l₂) =
      captionsData l₁ ++
        (if hasTab ln then [splitTab (pyStrip ln)] else []) ++ captionsData l₂ := by
  by_cases h : hasTab ln <;>
    simp [captionsData, List.filter_append, List.filter_cons, h]

/-- C8, witness: the per-line theorem applied to one tabless and one
tab-containing concrete line. -/
theorem captionsData_per_line_witness :
    captionsData (["no tab line".data] ++ "img.jpg\tcap".data :: []) =
      captionsData ["no tab line".data] ++
        (if hasTab "img.jpg\tcap".data then [splitTab (pyStrip "img.jpg\tcap".data)]
         else []) ++ captionsData [] :=
  captionsData_per_line ["no tab line".data] [] "img.jpg\tcap".data

/-- C5, counterexample: both the image directory and the captions file
exist, yet constructing the dataset still raises: the caption line
`"img.jpg\t\n"` contains a tab, but stripping removes that trailing tab
and the split yields a single field, so the pair unpacking
`for _, c in self.data` raises a ValueError. -/
theorem flickrInit_error_despite_paths_cex :
    cexFS.isDir "images".data = true ∧ cexFS.isFile "captions.txt".data = true ∧
    flickrInit cexFS "images".data "captions.txt".data 5 =
      Except.error "ValueError: unpacking".data := by
  exact ⟨rfl, rfl, rfl⟩

/-- C5, amended: construction raises whenever the image directory or the
captions file is missing; when both exist, those existence checks pass,
and construction succeeds exactly when every tab-containing line of the
captions file splits (after stripping) into exactly two fields — a line
of any other shape still raises, in the pair unpacking. -/
theorem flickrInit_error_conditions (fs : FileSys) (d f : PyStr) (ft : Nat) :
    ((fs.isDir d = false ∨ fs.isFile f = false) →
      ∃ e, flickrInit fs d f ft = Except.error e) ∧
    (fs.isDir d = true → fs.isFile f = true →
      ((∃ ds, flickrInit fs d f ft = Except.ok ds) ↔
        ∀ entry ∈ captionsData (fs.lines f), entry.length = 2)) := by
  constructor
  · intro h
    rcases h1 : fs.isDir d with _ | _
    · exact ⟨_, by rw [flickrInit, h1]; rfl⟩
    · rcases h2 : fs.isFile f with _ | _
      · exact ⟨_, by rw [flickrInit, h1, h2]; rfl⟩
      · rcases h with h | h
        · rw [h1] at h; cases h
        · rw [h2] at h; cases h
  · intro h1 h2
    rw [flickrInit_ok_eq fs d f ft h1 h2]
    constructor
    · rintro ⟨ds, hds⟩
      apply (mapM_unpackSnd_ok_iff _).mp
      rcases hm : (captionsData (fs.lines f)).mapM unpackSnd with err | caps
      · rw [hm, except_map_error] at hds; cases hds
      · exact ⟨caps, rfl⟩
    · intro h
      rcases (mapM_unpackSnd_ok_iff _).mpr h with ⟨caps, hcaps⟩
      rw [hcaps, except_map_ok]
      exact ⟨_, rfl⟩

/-- C5, witness: on the concrete well-formed filesystem, construction
succeeds via the amended theorem. -/
theorem flickrInit_error_conditions_witness :
    ∃ ds, flickrInit wFS "images".data "captions.txt".data 5 = Except.ok ds :=
  ((flickrInit_error_conditions wFS "images".data "captions.txt".data 5).2
    rfl rfl).mpr (by decide)

/-- C7: a successful run of `train` writes exactly one file: the
checkpoint at `output_path`, whose contents are a dictionary with exactly
the three keys `'encoder'`, `'decoder'` and `'vocab'`, holding the final
encoder weights, the final decoder weights, and the constructed dataset's
token-to-index map. -/
theorem train_single_checkpoint {E D B : Type} (fs : FileSys) (d f : PyStr) (ft : Nat)
    (enc0 : E) (dec0 : D) (loader : FlickrData → List B) (upd : E × D → B → E × D)
    (epochs : Nat) (out : PyStr) (log : WriteLog E D)
    (h : train fs d f ft enc0 dec0 loader upd epochs out = Except.ok log) :
    ∃ ds, flickrInit fs d f ft = Except.ok ds ∧
      log = [(out,
        [("encoder".data, CkptVal.enc
            (runEpochs upd (loader ds) epochs ((enc0, dec0), [])).1.1),
         ("decoder".data, CkptVal.dec
            (runEpochs upd (loader ds) epochs ((enc0, dec0), [])).1.2),
         ("vocab".data, CkptVal.vocabMap ds.vocab.stoi)])] ∧
      log.length = 1 ∧
      ∀ w ∈ log, w.2.map Prod.fst = ["encoder".data, "decoder".data, "vocab".data] := by
  rw [train] at h
  rcases hini : flickrInit fs d f ft with err | ds <;> rw [hini] at h
  · rw [except_map_error] at h; cases h
  · rw [except_map_ok] at h
    injection h with h'
    have hlog : log = (runEpochs upd (loader ds) epochs ((enc0, dec0), [])).2 ++
        [(out, [("encoder".data, CkptVal.enc
            (runEpochs upd (loader ds) epochs ((enc0, dec0), [])).1.1),
          ("decoder".data, CkptVal.dec
            (runEpochs upd (loader ds) epochs ((enc0, dec0), [])).1.2),
          ("vocab".data, CkptVal.vocabMap ds.vocab.stoi)])] := h'.symm
    rw [runEpochs_writes, List.nil_append] at hlog
    refine ⟨ds, rfl, hlog, by rw [hlog]; rfl, ?_⟩
    intro w hw
    rw [hlog] at hw
    rcases List.mem_singleton.mp hw with rfl
    rfl

/-- C7, witness: a concrete successful run with unit weight types writes
exactly the one expected checkpoint. -/
theorem train_single_checkpoint_witness :
    ([("model.pth".data,
      [("encoder".data, CkptVal.enc ()), ("decoder".data, CkptVal.dec ()),
       ("vocab".data, (CkptVal.vocabMap
          [(padS, 0), (sosS, 1), (eosS, 2), (unkS, 3)] :
            CkptVal Unit Unit))])] : WriteLog Unit Unit).length
      = 1 := by
  obtain ⟨ds, h1, h2, h3, h4⟩ := train_single_checkpoint wFS "images".data
    "captions.txt".data 5 () () (fun _ => ([] : List Unit)) (fun w _ => w) 10
    "model.pth".data
    [("model.pth".data,
      [("encoder".data, CkptVal.enc ()), ("decoder".data, CkptVal.dec ()),
       ("vocab".data, CkptVal.vocabMap [(padS, 0), (sosS, 1), (eosS, 2), (unkS, 3)])])]
    rfl
  exact h3

end Captioning
